import Mathlib

/-!
# HAST: software defined high-speed asynchronous serial transmitter

A shallow embedding of `hast.hpp`: the build-time timing table of
`hast::transmitter`, its static assertions, the byte sender and the AVR delay
injectors, followed by the properties established about them.

Conventions of the embedding.

* Values of the C++ integer types are integers of Lean (`Int`).  A signed
  arithmetic result that leaves its type is undefined behaviour, which makes
  the enclosing constant expression ill-formed: such a computation has no
  value (`none`).  An implicit conversion to a narrower or differently signed
  type keeps the low bits of the value; `clock_t` arithmetic is modulo `2^64`.
* `/` and `%` of C++ truncate towards zero: `Int.tdiv` and `Int.tmod`.
* `static_warn` is modelled as it is defined without `HAST_DEBUG`, that is as
  `static_assert`.
-/

namespace hast

/-! ## Machine integers -/

/-- Result of an arithmetic operation of type `cycle_t` (`int32_t`): the value
when it is representable, nothing otherwise. -/
def s32 (x : Int) : Option Int :=
  if -2147483648 ≤ x ∧ x ≤ 2147483647 then some x else none

/-- Result of an arithmetic operation of type `milicycle_t` or `time_t`
(`int64_t`): the value when it is representable, nothing otherwise. -/
def s64 (x : Int) : Option Int :=
  if -9223372036854775808 ≤ x ∧ x ≤ 9223372036854775807 then some x else none

/-- Implicit conversion to `cycle_t`: the low 32 bits, read as two's
complement. -/
def to_cycle_t (x : Int) : Int :=
  (x + 2147483648) % 4294967296 - 2147483648

/-- Implicit conversion to `milicycle_t`: the low 64 bits, read as two's
complement. -/
def to_milicycle_t (x : Int) : Int :=
  (x + 9223372036854775808) % 18446744073709551616 - 9223372036854775808

/-- Implicit conversion to `clock_t` (`uint64_t`): reduction modulo `2^64`. -/
def to_clock_t (x : Int) : Int :=
  x % 18446744073709551616

/-- The constant `mili`, the factor between cycles and milicycles. -/
def mili : Int := 1000

/-- Local constexpr `abs` on `time_t`; negating the least value overflows. -/
def abs (v : Int) : Option Int :=
  if v < 0 then s64 (-v) else some v

/-! ## AVR delay injectors -/

namespace avr

/-- Instructions that the delay injectors emit. `ldi_dec_brne count` is the
short loop `ldi r18, count; dec r18; brne .-4`, `ldi_lpm_dec_brne count` the
long loop `ldi r18, count; lpm; dec r18; brne .-5`. -/
inductive Instr where
  | nop
  | rjmp
  | lpm
  | ldi_dec_brne (count : Int)
  | ldi_lpm_dec_brne (count : Int)
  deriving DecidableEq

/-- Clocks per instruction of the AVR core. -/
def cpi : Int := 1

/-- The constant `delay<period_ic>::max`. -/
def delay_max : Int := 255 * 6 + 2

/-- Number of times the body of a loop runs when `r18` is loaded with
`count`: the 8-bit register is decremented until it reaches zero, so a zero
operand gives 256 rounds. -/
def iterations (count : Int) : Int :=
  if count % 256 = 0 then 256 else count % 256

/-- Instruction cycles of one emitted instruction. `nop` takes 1 cycle, `rjmp`
2 and `lpm` 3; a loop takes 1 cycle for `ldi`, then per round the body with
`dec` (1) and a taken `brne` (2), the last `brne` falling through in 1. -/
def Instr.cost : Instr → Int
  | .nop => 1
  | .rjmp => 2
  | .lpm => 3
  | .ldi_dec_brne count => 1 + iterations count * (1 + 2) - 1
  | .ldi_lpm_dec_brne count => 1 + iterations count * (3 + 1 + 2) - 1

/-- Instruction cycles of an emitted sequence. -/
def cost (code : List Instr) : Int :=
  (code.map Instr.cost).sum

/-- The explicit specialisations `delay<0>::cycles` .. `delay<11>::cycles`;
`none` for a period that has no specialisation. -/
def delay_specialised (period_ic : Int) : Option (List Instr) :=
  let d0 : List Instr := []
  let d1 : List Instr := [.nop]
  let d2 : List Instr := [.rjmp]
  let d3 : List Instr := [.lpm]
  let d6 := d3 ++ d3
  let d9 := d6 ++ d3
  if period_ic = 0 then some d0
  else if period_ic = 1 then some d1
  else if period_ic = 2 then some d2
  else if period_ic = 3 then some d3
  else if period_ic = 4 then some (d2 ++ d2)
  else if period_ic = 5 then some (d3 ++ d2)
  else if period_ic = 6 then some d6
  else if period_ic = 7 then some (d6 ++ d1)
  else if period_ic = 8 then some (d6 ++ d2)
  else if period_ic = 9 then some d9
  else if period_ic = 10 then some (d9 ++ d1)
  else if period_ic = 11 then some (d9 ++ d2)
  else none

/-- The member `delay<period_ic>::longloop`. -/
def longloop (period_ic : Int) : Bool :=
  decide (period_ic > 255 * 3)

/-- The member `loop<period_ic, longloop>::count`. -/
def loop_count (period_ic : Int) (long : Bool) : Int :=
  if long then Int.tdiv period_ic 6 else Int.tdiv period_ic 3

/-- The remainder handed on by `loop<period_ic, longloop>::cycles`. -/
def loop_rest (period_ic : Int) (long : Bool) : Int :=
  if long then Int.tmod period_ic 6 else Int.tmod period_ic 3

/-- The code of `loop<period_ic, longloop>::cycles`: the loop instruction,
then `delay<period_ic % 3>::cycles` (`% 6` for the long loop). For a period
that is not negative the remainder is one of the explicit specialisations; a
negative period has no code (the loop operand is not an 8-bit constant, or
the instantiation does not end). -/
def loop_cycles (period_ic : Int) (long : Bool) : Option (List Instr) :=
  if period_ic < 0 then none
  else
    (delay_specialised (loop_rest period_ic long)).map fun rest =>
      (if long then Instr.ldi_lpm_dec_brne (loop_count period_ic long)
       else Instr.ldi_dec_brne (loop_count period_ic long)) :: rest

/-- The code of `delay<period_ic>::cycles`: an explicit specialisation when
there is one, otherwise the primary template, which calls
`loop<period_ic, longloop>::cycles`. -/
def delay_cycles (period_ic : Int) : Option (List Instr) :=
  match delay_specialised period_ic with
  | some code => some code
  | none => loop_cycles period_ic (longloop period_ic)

/-- The static assertion "Delay too long" of `delay<period_ic>`. -/
def delay_assert (period_ic : Int) : Bool :=
  decide (period_ic ≤ delay_max)

/-- The static assertion "Loop is too long" of `loop<period_ic, longloop>`. -/
def loop_assert (period_ic : Int) (long : Bool) : Bool :=
  decide (loop_count period_ic long ≤ 255)

/-- All static assertions met when `delay<period_ic>::cycles` is instantiated:
"Delay too long" of the class, and for the primary template "Loop is too
long" of the loop it calls, whose code must exist. -/
def delay_accepted (period_ic : Int) : Bool :=
  delay_assert period_ic &&
    (match delay_specialised period_ic with
     | some _ => true
     | none =>
        loop_assert period_ic (longloop period_ic) &&
          (loop_cycles period_ic (longloop period_ic)).isSome)

end avr

/-! ## Template parameters -/

/-- Stop bits values. -/
inductive stopbits where
  | none
  | half
  | one
  | one_half
  | two
  deriving DecidableEq

/-- The value `static_cast<milicycle_t>(stopbit)` of the enumeration. -/
def stopbits.val : stopbits → Int
  | .none => 0
  | .half => 1
  | .one => 2
  | .one_half => 3
  | .two => 4

/-- What the transmitter reads of `driver::mcu`: the constant `cpi`, the
constant `delay<period_ic>::max`, and whether `delay<period_ic>::cycles`
instantiates without a failed static assertion. -/
structure Mcu where
  cpi : Int
  delay_max : Int
  delay_accepted : Int → Bool

/-- What the transmitter reads of its `driver` parameter. -/
structure Driver where
  mcu : Mcu
  send_cycles : Int
  start_cycles : Int
  stop_cycles : Int

/-- The template parameters of `transmitter`. -/
structure Config where
  clock : Int
  baudrate : Int
  driver : Driver
  stopbit : stopbits

/-- The template arguments have the types of their parameters: `clock_t` for
clock and baud rate, `cycle_t` for the constants of driver and mcu. -/
def Config.typed (c : Config) : Prop :=
  (0 ≤ c.clock ∧ c.clock < 18446744073709551616) ∧
  (0 ≤ c.baudrate ∧ c.baudrate < 18446744073709551616) ∧
  (-2147483648 ≤ c.driver.mcu.cpi ∧ c.driver.mcu.cpi ≤ 2147483647) ∧
  (-2147483648 ≤ c.driver.mcu.delay_max ∧ c.driver.mcu.delay_max ≤ 2147483647) ∧
  (-2147483648 ≤ c.driver.send_cycles ∧ c.driver.send_cycles ≤ 2147483647) ∧
  (-2147483648 ≤ c.driver.start_cycles ∧ c.driver.start_cycles ≤ 2147483647) ∧
  (-2147483648 ≤ c.driver.stop_cycles ∧ c.driver.stop_cycles ≤ 2147483647)

/-- The mcu `avr`. -/
def avr.mcu : Mcu :=
  { cpi := avr.cpi, delay_max := avr.delay_max, delay_accepted := avr.delay_accepted }

/-- The cost constants of `avr::driver`. -/
def avr.driver : Driver :=
  { mcu := avr.mcu, send_cycles := 3, start_cycles := 0, stop_cycles := 2 }

/-! ## The transmitter -/

namespace transmitter

/-- The constant `milicycles_per_bit = (mili * clock / cpi) / baudrate`,
computed in `clock_t` and converted to `milicycle_t`. A zero divisor leaves
it without a value. -/
def milicycles_per_bit (c : Config) : Option Int :=
  if to_clock_t c.driver.mcu.cpi = 0 then none
  else if c.baudrate = 0 then none
  else
    some (to_milicycle_t
      (Int.tdiv (Int.tdiv (to_clock_t (mili * c.clock)) (to_clock_t c.driver.mcu.cpi))
        c.baudrate))

/-- The function `timing`: `(mfinish - rstart * mili) / mili`, returned as
`cycle_t`. -/
def timing (_bit : Nat) (rstart mfinish : Int) : Option Int := do
  let p ← s64 (rstart * mili)
  let d ← s64 (mfinish - p)
  some (to_cycle_t (Int.tdiv d mili))

/-- The function `best`:
`abs(goal - rstart*mili - a*mili) < abs(goal - rstart*mili - b*mili) ? a : b`. -/
def best (goal rstart a b : Int) : Option Int := do
  let p ← s64 (rstart * mili)
  let g ← s64 (goal - p)
  let pa ← s64 (a * mili)
  let da ← s64 (g - pa)
  let ea ← hast.abs da
  let pb ← s64 (b * mili)
  let db ← s64 (g - pb)
  let eb ← hast.abs db
  some (if ea < eb then a else b)

/-- The function `bitlen`:
`best(mfinish, rstart, timing(bit, rstart, mfinish), timing(bit, rstart, mfinish) + 1)`. -/
def bitlen (bit : Nat) (rstart mfinish : Int) : Option Int := do
  let a ← timing bit rstart mfinish
  let b ← s32 (a + 1)
  best mfinish rstart a b

/-- The recursion terminator `t0`: its member `rfinish`. -/
def t0_rfinish : Int := 0

/-- The members of one instance `t<bit>` of the waveform time-table. -/
structure Entry where
  cycles : Int
  mstart : Int
  mfinish : Int
  rstart : Int
  length : Int
  wait : Int
  rfinish : Int
  error : Int
  deriving DecidableEq

/-- The member `t<bit>::cycles`. -/
def cycles (c : Config) (bit : Nat) : Option Int :=
  if bit = 0 then s32 (c.driver.start_cycles + c.driver.send_cycles)
  else if bit = 9 then some c.driver.stop_cycles
  else some c.driver.send_cycles

/-- The member `t<bit>::mfinish`. -/
def mfinish (c : Config) (bit : Nat) : Option Int := do
  let m ← milicycles_per_bit c
  if bit = 9 then
    let x ← s64 (m * bit)
    let y ← s64 (m * c.stopbit.val)
    s64 (x + Int.tdiv y 2)
  else
    s64 (m * (bit + 1))

/-- The member `t<bit>::wait = (length < cycles) ? 0 : (length - cycles)`. -/
def wait_cycles (length cycles : Int) : Option Int :=
  if length < cycles then some 0 else s32 (length - cycles)

/-- The members of `t<bit>` computed from `rstart`, the `rfinish` of the
previous instance. The instance has a value when each of its members has
one. -/
def entry (c : Config) (bit : Nat) (rstart : Int) : Option Entry := do
  let m ← milicycles_per_bit c
  let cycles ← cycles c bit
  let mstart ← s64 (m * bit)
  let mfinish ← mfinish c bit
  let length ← bitlen bit rstart mfinish
  let wait ← wait_cycles length cycles
  let rw ← s32 (rstart + wait)
  let rfinish ← s32 (rw + cycles)
  let pf ← s64 (mili * rfinish)
  let df ← s64 (mfinish - pf)
  let error ← hast.abs df
  some { cycles := cycles, mstart := mstart, mfinish := mfinish, rstart := rstart,
         length := length, wait := wait, rfinish := rfinish, error := error }

/-- The waveform time-table `t<bit>`; `rstart` is `prev<bit, t, t0>::rfinish`,
that is `t0::rfinish` for bit 0 and `t<bit-1>::rfinish` otherwise. -/
def t (c : Config) : Nat → Option Entry
  | 0 => entry c 0 t0_rfinish
  | bit + 1 => do
      let p ← t c bit
      entry c (bit + 1) p.rfinish

/-- The member `t<bit>::wait`. -/
def wait (c : Config) (bit : Nat) : Option Int :=
  (t c bit).map Entry.wait

/-- The ten instances `t<0>` .. `t<9>` that `send` names. -/
def table (c : Config) : Option (List Entry) :=
  (List.range 10).mapM (t c)

/-! ### Static assertions -/

/-- The assertion "Baudrate is too high for given clock and driver":
`milicycles_per_bit >= mili * driver::send_cycles`. -/
def baud_high_assert (c : Config) : Option Bool := do
  let m ← milicycles_per_bit c
  let p ← s64 (mili * c.driver.send_cycles)
  some (decide (m ≥ p))

/-- The assertion "Baudrate is too low for given clock and driver":
`milicycles_per_bit <= mili * delay<milicycles_per_bit/mili>::max`. The
template argument is a converted constant expression of type `cycle_t`, which
has to represent the quotient. -/
def baud_low_assert (c : Config) : Option Bool := do
  let m ← milicycles_per_bit c
  let _ ← s32 (Int.tdiv m mili)
  let p ← s64 (mili * c.driver.mcu.delay_max)
  some (decide (m ≤ p))

/-- The first assertion of `t<bit>`:
`bit == 9 || error <= (milicycles_per_bit / 5)`. -/
def error_assert (c : Config) (bit : Nat) : Option Bool := do
  let m ← milicycles_per_bit c
  let e ← t c bit
  some (decide (bit = 9) || decide (e.error ≤ Int.tdiv m 5))

/-- The second assertion of `t<bit>`:
`bit == 9 || wait <= driver::mcu::template delay<0>::max`. -/
def wait_assert (c : Config) (bit : Nat) : Option Bool := do
  let e ← t c bit
  some (decide (bit = 9) || decide (e.wait ≤ c.driver.mcu.delay_max))

/-- The assertions of the mcu for `delay<t<bit>::wait>::cycles`, which `send`
instantiates. -/
def delay_assert (c : Config) (bit : Nat) : Option Bool :=
  (wait c bit).map c.driver.mcu.delay_accepted

/-- A build of `transmitter<clock, baudrate, driver, stopbit>::send` is
accepted when every static assertion it instantiates holds: the two
assertions on the baud rate, the two assertions of each of `t<0>` .. `t<9>`,
and those of the ten delays. -/
def accepted (c : Config) : Bool :=
  baud_high_assert c == some true && baud_low_assert c == some true &&
    (List.range 10).all fun bit =>
      error_assert c bit == some true && wait_assert c bit == some true &&
        delay_assert c bit == some true

/-! ### Sending a byte -/

/-- What `send` does, one action per statement: a call of the driver with its
arguments, or a delay of a number of instruction cycles. -/
inductive Action where
  | start (data : Nat)
  | send (bit : Nat) (data : Nat)
  | stop (data : Nat)
  | delay (period_ic : Int)
  deriving DecidableEq

/-- The function `send(uint8_t data)`, statement by statement. -/
def send (c : Config) (data : Nat) : Option (List Action) := do
  let w0 ← wait c 0
  let w1 ← wait c 1
  let w2 ← wait c 2
  let w3 ← wait c 3
  let w4 ← wait c 4
  let w5 ← wait c 5
  let w6 ← wait c 6
  let w7 ← wait c 7
  let w8 ← wait c 8
  let w9 ← wait c 9
  some [
    .start data,
    .delay w0,
    .send 0 data,
    .delay w1,
    .send 1 data,
    .delay w2,
    .send 2 data,
    .delay w3,
    .send 3 data,
    .delay w4,
    .send 4 data,
    .delay w5,
    .send 5 data,
    .delay w6,
    .send 6 data,
    .delay w7,
    .send 7 data,
    .delay w8,
    .stop data,
    .delay w9 ]

/-- Instruction cycles of an action: the cost the driver declares for its
calls, the period for a delay. -/
def Action.cost (d : Driver) : Action → Int
  | .start _ => d.start_cycles
  | .send _ _ => d.send_cycles
  | .stop _ => d.stop_cycles
  | .delay period_ic => period_ic

/-- The actions of a sequence up to and including the line action (a `send`
or the `stop`) that ends frame position `k`. -/
def upto_position : Nat → List Action → List Action
  | _, [] => []
  | k, .send bit data :: rest =>
      match k with
      | 0 => [.send bit data]
      | k + 1 => .send bit data :: upto_position k rest
  | k, .stop data :: rest =>
      match k with
      | 0 => [.stop data]
      | k + 1 => .stop data :: upto_position k rest
  | k, .start data :: rest => .start data :: upto_position k rest
  | k, .delay period_ic :: rest => .delay period_ic :: upto_position k rest

/-- Instruction cycles that `send` has spent when the line action ending
frame position `k` completes. -/
def elapsed (c : Config) (data : Nat) (k : Nat) : Option Int :=
  (send c data).map fun acts => ((upto_position k acts).map (Action.cost c.driver)).sum

/-- The order of actions as the specification words it: `start(byte)`; then
for bit 0..8 `delay(paddingCycles[bit])`, `send(bit)`; then
`delay(paddingCycles[9])`, `stop(byte)`. -/
def send_specified (c : Config) (data : Nat) : Option (List Action) := do
  let pairs ← (List.range 9).mapM fun bit =>
    (wait c bit).map fun w => [Action.delay w, Action.send bit data]
  let w9 ← wait c 9
  some (Action.start data :: pairs.flatten ++ [Action.delay w9, Action.stop data])

end transmitter

/-! ## Instances of the examples -/

/-- The alias `test115k` of `print_timing_tables.cpp`: 8 MHz, 115200 baud, the
AVR driver, two stop bits. -/
def test115k : Config :=
  { clock := 8000000, baudrate := 115200, driver := avr.driver, stopbit := stopbits.two }

/-- The alias `trans` of `ATtiny_1MHz_Test.cpp`: 1 MHz, 230400 baud, the AVR
driver, one stop bit. -/
def trans : Config :=
  { clock := 1000000, baudrate := 230400, driver := avr.driver, stopbit := stopbits.one }

/-- The parameters of `trans` with the next standard baud rate, 460800. -/
def trans460k : Config :=
  { clock := 1000000, baudrate := 460800, driver := avr.driver, stopbit := stopbits.one }

/-- The standard baud rates of the enumeration `baudrate`. -/
def baudrate.standard : List Int :=
  [9600, 19200, 38400, 57600, 115200, 230400, 460800, 921600]

/-- The transmitter of `dbg_putc.cpp`: 8 MHz, 921600 baud, the AVR driver, no
stop bit. -/
def dbg_putc : Config :=
  { clock := 8000000, baudrate := 921600, driver := avr.driver, stopbit := stopbits.none }

end hast

/-! ## Properties -/

namespace hast
open transmitter

/-! ### Auxiliary facts on the machine integers -/

theorem s32_eq_some {x y : Int} (h : s32 x = some y) :
    y = x ∧ -2147483648 ≤ x ∧ x ≤ 2147483647 := by
  unfold s32 at h
  split at h
  · rename_i hx
    exact ⟨by simpa using h.symm, hx.1, hx.2⟩
  · simp at h

theorem s64_eq_some {x y : Int} (h : s64 x = some y) :
    y = x ∧ -9223372036854775808 ≤ x ∧ x ≤ 9223372036854775807 := by
  unfold s64 at h
  split at h
  · rename_i hx
    exact ⟨by simpa using h.symm, hx.1, hx.2⟩
  · simp at h

theorem s32_of_fits {x : Int} (h0 : -2147483648 ≤ x) (h1 : x ≤ 2147483647) :
    s32 x = some x := by
  simp [s32, h0, h1]

theorem s64_of_fits {x : Int} (h0 : -9223372036854775808 ≤ x)
    (h1 : x ≤ 9223372036854775807) : s64 x = some x := by
  simp [s64, h0, h1]

theorem abs_eq_some {v e : Int} (h : hast.abs v = some e) : e = |v| := by
  unfold hast.abs at h
  split at h
  · rename_i hv
    obtain ⟨he, -, -⟩ := s64_eq_some h
    rw [he, abs_of_neg hv]
  · rename_i hv
    have hv0 : 0 ≤ v := not_lt.mp hv
    rw [abs_of_nonneg hv0]
    simpa using h.symm

theorem abs_of_fits {v : Int} (h0 : -9223372036854775807 ≤ v) :
    hast.abs v = some |v| := by
  unfold hast.abs
  split
  · rename_i hv
    rw [abs_of_neg hv]
    exact s64_of_fits (by omega) (by omega)
  · rename_i hv
    rw [abs_of_nonneg (not_lt.mp hv)]

theorem to_cycle_t_of_fits {x : Int} (h0 : -2147483648 ≤ x) (h1 : x ≤ 2147483647) :
    to_cycle_t x = x := by
  unfold to_cycle_t
  omega

/-- Truncating division in terms of the floor division of `omega`. -/
theorem tdiv_cases (d m : Int) (hm : 0 ≤ m) :
    (0 ≤ d → Int.tdiv d m = d / m) ∧ (d ≤ 0 → Int.tdiv d m = -((-d) / m)) := by
  constructor
  · intro hd
    exact Int.tdiv_eq_ediv hd hm
  · intro hd
    have h := Int.neg_tdiv (-d) m
    rw [neg_neg] at h
    rw [h, Int.tdiv_eq_ediv (by omega) hm]

/-! ### Delay injectors -/

theorem delay_specialised_cost (r : Int) (h0 : 0 ≤ r) (h1 : r ≤ 11) :
    ∃ code, avr.delay_specialised r = some code ∧ avr.cost code = r := by
  interval_cases r <;> exact ⟨_, rfl, by decide⟩

theorem delay_specialised_none (n : Int) (h : 12 ≤ n) : avr.delay_specialised n = none := by
  unfold avr.delay_specialised
  simp only []
  repeat (rw [if_neg (by omega)])

theorem iterations_of_byte (k : Int) (h0 : 1 ≤ k) (h1 : k ≤ 255) : avr.iterations k = k := by
  unfold avr.iterations
  rw [if_neg (by omega)]
  omega

/-- C1: for every cycle count from 0 to `delay<N>::max` (1532) the code of
`avr::delay<n>::cycles` exists and takes exactly `n` instruction cycles. -/
theorem C1_delay_cycles_exact (n : Int) (h0 : 0 ≤ n) (h1 : n ≤ avr.delay_max) :
    ∃ code, avr.delay_cycles n = some code ∧ avr.cost code = n := by
  have hmax : avr.delay_max = 1532 := by decide
  rw [hmax] at h1
  by_cases hs : n ≤ 11
  · obtain ⟨code, hc, hcost⟩ := delay_specialised_cost n h0 hs
    exact ⟨code, by simp [avr.delay_cycles, hc], hcost⟩
  · have hn : 12 ≤ n := by omega
    have hd : Int.tdiv n 3 = n / 3 := Int.tdiv_eq_ediv h0 (by norm_num)
    have hd6 : Int.tdiv n 6 = n / 6 := Int.tdiv_eq_ediv h0 (by norm_num)
    have hm : Int.tmod n 3 = n % 3 := Int.tmod_eq_emod h0 (by norm_num)
    have hm6 : Int.tmod n 6 = n % 6 := Int.tmod_eq_emod h0 (by norm_num)
    by_cases hl : 765 < n
    · obtain ⟨rest, hr, hcost⟩ := delay_specialised_cost (n % 6) (by omega) (by omega)
      refine ⟨avr.Instr.ldi_lpm_dec_brne (n / 6) :: rest, ?_, ?_⟩
      · simp [avr.delay_cycles, delay_specialised_none n hn, avr.loop_cycles, avr.longloop,
          avr.loop_rest, avr.loop_count, hl, hd6, hm6, hr, not_lt.mpr h0]
      · have hi := iterations_of_byte (n / 6) (by omega) (by omega)
        simp only [avr.cost, List.map_cons, List.sum_cons, avr.Instr.cost, hi] at hcost ⊢
        omega
    · obtain ⟨rest, hr, hcost⟩ := delay_specialised_cost (n % 3) (by omega) (by omega)
      refine ⟨avr.Instr.ldi_dec_brne (n / 3) :: rest, ?_, ?_⟩
      · simp [avr.delay_cycles, delay_specialised_none n hn, avr.loop_cycles, avr.longloop,
          avr.loop_rest, avr.loop_count, hl, hd, hm, hr, not_lt.mpr h0]
      · have hi := iterations_of_byte (n / 3) (by omega) (by omega)
        simp only [avr.cost, List.map_cons, List.sum_cons, avr.Instr.cost, hi] at hcost ⊢
        omega

/-- Witness of C1 at the greatest period, 1532 cycles. -/
theorem C1_delay_cycles_exact_witness :
    (0 : Int) ≤ 1532 ∧ (1532 : Int) ≤ avr.delay_max ∧
      ∃ code, avr.delay_cycles 1532 = some code ∧ avr.cost code = 1532 :=
  ⟨by decide, by decide, C1_delay_cycles_exact 1532 (by decide) (by decide)⟩

/-! ### Bit length -/

theorem timing_eq_some {bit : Nat} {rstart mfinish a : Int}
    (h : timing bit rstart mfinish = some a) :
    a = to_cycle_t (Int.tdiv (mfinish - rstart * 1000) 1000) ∧
      -9223372036854775808 ≤ mfinish - rstart * 1000 ∧
      mfinish - rstart * 1000 ≤ 9223372036854775807 := by
  unfold timing at h
  simp only [Option.bind_eq_bind, Option.bind_eq_some, mili] at h
  obtain ⟨p, hp, d, hd, ha⟩ := h
  obtain ⟨rfl, -, -⟩ := s64_eq_some hp
  obtain ⟨rfl, h0, h1⟩ := s64_eq_some hd
  exact ⟨by simpa using ha.symm, h0, h1⟩

theorem best_eq_some {goal rstart a b l : Int} (h : best goal rstart a b = some l) :
    l = if |goal - rstart * 1000 - a * 1000| < |goal - rstart * 1000 - b * 1000|
        then a else b := by
  unfold best at h
  simp only [Option.bind_eq_bind, Option.bind_eq_some, mili] at h
  obtain ⟨p, hp, g, hg, pa, hpa, da, hda, ea, hea, pb, hpb, db, hdb, eb, heb, hl⟩ := h
  obtain ⟨rfl, -, -⟩ := s64_eq_some hp
  obtain ⟨rfl, -, -⟩ := s64_eq_some hg
  obtain ⟨rfl, -, -⟩ := s64_eq_some hpa
  obtain ⟨rfl, -, -⟩ := s64_eq_some hda
  obtain ⟨rfl, -, -⟩ := s64_eq_some hpb
  obtain ⟨rfl, -, -⟩ := s64_eq_some hdb
  rw [abs_eq_some hea, abs_eq_some heb] at hl
  simpa using hl.symm

/-- What `bitlen` returns, when it returns: with `a` the value of `timing`,
the candidate `a` when it is strictly nearer to the goal, else `a + 1`. -/
theorem bitlen_eq_some {bit : Nat} {rstart mfinish l : Int}
    (h : bitlen bit rstart mfinish = some l) :
    l = (if |mfinish - rstart * 1000
              - to_cycle_t (Int.tdiv (mfinish - rstart * 1000) 1000) * 1000|
            < |mfinish - rstart * 1000
              - (to_cycle_t (Int.tdiv (mfinish - rstart * 1000) 1000) + 1) * 1000|
         then to_cycle_t (Int.tdiv (mfinish - rstart * 1000) 1000)
         else to_cycle_t (Int.tdiv (mfinish - rstart * 1000) 1000) + 1) := by
  unfold bitlen at h
  simp only [Option.bind_eq_bind, Option.bind_eq_some] at h
  obtain ⟨a, ha, b, hb, hl⟩ := h
  obtain ⟨rfl, -, -⟩ := timing_eq_some ha
  obtain ⟨rfl, -, -⟩ := s32_eq_some hb
  exact best_eq_some hl

/-- The value of `bitlen` where no conversion loses bits: the ideal length
`(mfinish - rstart * mili) / mili` and its successor are both of type
`cycle_t`. -/
theorem bitlen_of_fits (bit : Nat) (rstart mfinish : Int)
    (hr0 : -2147483648 ≤ rstart) (hr1 : rstart ≤ 2147483647)
    (hq0 : -2147483648 ≤ Int.tdiv (mfinish - rstart * 1000) 1000)
    (hq1 : Int.tdiv (mfinish - rstart * 1000) 1000 < 2147483647) :
    bitlen bit rstart mfinish =
      some (if |mfinish - rstart * 1000 - Int.tdiv (mfinish - rstart * 1000) 1000 * 1000|
              < |mfinish - rstart * 1000
                - (Int.tdiv (mfinish - rstart * 1000) 1000 + 1) * 1000|
            then Int.tdiv (mfinish - rstart * 1000) 1000
            else Int.tdiv (mfinish - rstart * 1000) 1000 + 1) := by
  obtain ⟨hpos, hneg⟩ := tdiv_cases (mfinish - rstart * 1000) 1000 (by norm_num)
  simp only [bitlen, timing, best, mili, Option.bind_eq_bind]
  obtain ⟨q, hq⟩ : ∃ q, Int.tdiv (mfinish - rstart * 1000) 1000 = q := ⟨_, rfl⟩
  rw [hq] at hq0 hq1 hpos hneg
  have hqr : -999 ≤ mfinish - rstart * 1000 - q * 1000 ∧
      mfinish - rstart * 1000 - q * 1000 ≤ 999 := by
    rcases le_total 0 (mfinish - rstart * 1000) with hd | hd
    · have := hpos hd
      omega
    · have := hneg hd
      omega
  have hp : s64 (rstart * 1000) = some (rstart * 1000) :=
    s64_of_fits (by omega) (by omega)
  have hd : s64 (mfinish - rstart * 1000) = some (mfinish - rstart * 1000) :=
    s64_of_fits (by omega) (by omega)
  have hc : to_cycle_t q = q := to_cycle_t_of_fits hq0 (by omega)
  have hb : s32 (q + 1) = some (q + 1) := s32_of_fits (by omega) (by omega)
  have hpa : s64 (q * 1000) = some (q * 1000) := s64_of_fits (by omega) (by omega)
  have hpb : s64 ((q + 1) * 1000) = some ((q + 1) * 1000) :=
    s64_of_fits (by omega) (by omega)
  have hda : s64 (mfinish - rstart * 1000 - q * 1000)
      = some (mfinish - rstart * 1000 - q * 1000) :=
    s64_of_fits (by omega) (by omega)
  have hdb : s64 (mfinish - rstart * 1000 - (q + 1) * 1000)
      = some (mfinish - rstart * 1000 - (q + 1) * 1000) :=
    s64_of_fits (by omega) (by omega)
  have hea := abs_of_fits (v := mfinish - rstart * 1000 - q * 1000) (by omega)
  have heb := abs_of_fits (v := mfinish - rstart * 1000 - (q + 1) * 1000) (by omega)
  simp only [Option.some_bind, hp, hd, hq, hc, hb, hpa, hpb, hda, hdb, hea, heb]

/-- C2 (counterexample): with actual start 0 and ideal finish 4294967296000
milicycles the ideal length 4294967296 does not fit `cycle_t`; `timing`
returns 0 and `bitlen` returns 1, which is neither the floor nor its
successor and does not minimise the deviation. -/
theorem C2_counterexample :
    (4294967296000 : Int) ≥ 1000 * 0 ∧ bitlen 0 0 4294967296000 = some 1 ∧
    ¬ ∃ L : Int, bitlen 0 0 4294967296000 = some L ∧
        (L = (4294967296000 - 1000 * 0) / 1000 ∨ L = (4294967296000 - 1000 * 0) / 1000 + 1) ∧
        ∀ k : Int, |4294967296000 - (0 + L) * 1000| ≤ |4294967296000 - (0 + k) * 1000| := by
  have hv : bitlen 0 0 4294967296000 = some 1 := by decide
  refine ⟨by decide, hv, ?_⟩
  rintro ⟨L, hL, hor, -⟩
  rw [hv] at hL
  obtain rfl : 1 = L := by simpa using hL
  norm_num at hor

/-- C2 (amended): for an actual start `rstart` of type `cycle_t` and an ideal
finish with `mfinish >= 1000 * rstart` whose ideal length stays below the
greatest `cycle_t`, `bitlen` returns the floor of the ideal length or its
successor, and no integer length has a smaller milicycle deviation. -/
theorem C2_bitlen_minimises (bit : Nat) (rstart mfinish : Int)
    (hr0 : -2147483648 ≤ rstart) (hr1 : rstart ≤ 2147483647)
    (hge : mfinish ≥ 1000 * rstart)
    (hfit : (mfinish - 1000 * rstart) / 1000 < 2147483647) :
    ∃ L : Int, bitlen bit rstart mfinish = some L ∧
      (L = (mfinish - 1000 * rstart) / 1000 ∨ L = (mfinish - 1000 * rstart) / 1000 + 1) ∧
      ∀ k : Int, |mfinish - (rstart + L) * 1000| ≤ |mfinish - (rstart + k) * 1000| := by
  have hdd : mfinish - rstart * 1000 = mfinish - 1000 * rstart := by ring
  have hq : Int.tdiv (mfinish - rstart * 1000) 1000 = (mfinish - 1000 * rstart) / 1000 := by
    rw [hdd]
    exact Int.tdiv_eq_ediv (by omega) (by norm_num)
  have hb := bitlen_of_fits bit rstart mfinish hr0 hr1 (by rw [hq]; omega) (by rw [hq]; exact hfit)
  rw [hq, hdd] at hb
  refine ⟨_, hb, ?_, ?_⟩
  · split_ifs <;> simp
  · intro k
    have hfl : (mfinish - 1000 * rstart) / 1000 * 1000 ≤ mfinish - 1000 * rstart ∧
        mfinish - 1000 * rstart < (mfinish - 1000 * rstart) / 1000 * 1000 + 1000 := by
      omega
    clear hb hq
    generalize (mfinish - 1000 * rstart) / 1000 = q at *
    split_ifs with hlt
    · rcases abs_cases (mfinish - 1000 * rstart - q * 1000) with ⟨e1, s1⟩ | ⟨e1, s1⟩ <;>
      rcases abs_cases (mfinish - 1000 * rstart - (q + 1) * 1000) with ⟨e2, s2⟩ | ⟨e2, s2⟩ <;>
      rcases abs_cases (mfinish - (rstart + q) * 1000) with ⟨e3, s3⟩ | ⟨e3, s3⟩ <;>
      rcases abs_cases (mfinish - (rstart + k) * 1000) with ⟨e4, s4⟩ | ⟨e4, s4⟩ <;>
      omega
    · rcases abs_cases (mfinish - 1000 * rstart - q * 1000) with ⟨e1, s1⟩ | ⟨e1, s1⟩ <;>
      rcases abs_cases (mfinish - 1000 * rstart - (q + 1) * 1000) with ⟨e2, s2⟩ | ⟨e2, s2⟩ <;>
      rcases abs_cases (mfinish - (rstart + (q + 1)) * 1000) with ⟨e3, s3⟩ | ⟨e3, s3⟩ <;>
      rcases abs_cases (mfinish - (rstart + k) * 1000) with ⟨e4, s4⟩ | ⟨e4, s4⟩ <;>
      omega

/-- Witness of C2 (amended): start 69, ideal finish 138888 milicycles. -/
theorem C2_bitlen_minimises_witness :
    (138888 : Int) ≥ 1000 * 69 ∧ (138888 - 1000 * 69 : Int) / 1000 < 2147483647 ∧
    ∃ L : Int, bitlen 1 69 138888 = some L ∧
      (L = (138888 - 1000 * 69) / 1000 ∨ L = (138888 - 1000 * 69) / 1000 + 1) ∧
      ∀ k : Int, |138888 - (69 + L) * 1000| ≤ |138888 - (69 + k) * 1000| :=
  ⟨by decide, by decide,
    C2_bitlen_minimises 1 69 138888 (by decide) (by decide) (by decide) (by decide)⟩

/-- C3 (counterexample): with actual start 0 and ideal finish 4500 milicycles
the candidates 4 and 5 are both 500 milicycles off, and `bitlen` returns 5,
not the floor 4. -/
theorem C3_counterexample :
    |(4500 : Int) - (0 + (4500 - 1000 * 0) / 1000) * 1000|
        = |(4500 : Int) - (0 + ((4500 - 1000 * 0) / 1000 + 1)) * 1000| ∧
      bitlen 0 0 4500 = some 5 ∧
      bitlen 0 0 4500 ≠ some ((4500 - 1000 * 0) / 1000) := by
  refine ⟨by decide, by decide, by decide⟩

/-- C3 (amended): when the floor of the ideal length and its successor have
equal absolute milicycle deviation from the ideal finish, `bitlen` returns
the larger candidate, floor + 1 (for `rstart` and the floor within
`cycle_t`, the floor below its greatest value). -/
theorem C3_bitlen_tie_takes_successor (bit : Nat) (rstart mfinish : Int)
    (hr0 : -2147483648 ≤ rstart) (hr1 : rstart ≤ 2147483647)
    (hf0 : -2147483648 ≤ (mfinish - 1000 * rstart) / 1000)
    (hf1 : (mfinish - 1000 * rstart) / 1000 < 2147483647)
    (htie : |mfinish - (rstart + (mfinish - 1000 * rstart) / 1000) * 1000|
        = |mfinish - (rstart + ((mfinish - 1000 * rstart) / 1000 + 1)) * 1000|) :
    bitlen bit rstart mfinish = some ((mfinish - 1000 * rstart) / 1000 + 1) := by
  have hdd : mfinish - rstart * 1000 = mfinish - 1000 * rstart := by ring
  obtain ⟨hpos, hneg⟩ := tdiv_cases (mfinish - 1000 * rstart) 1000 (by norm_num)
  have hfl : (mfinish - 1000 * rstart) / 1000 * 1000 ≤ mfinish - 1000 * rstart ∧
      mfinish - 1000 * rstart < (mfinish - 1000 * rstart) / 1000 * 1000 + 1000 := by
    omega
  have hnegfl : mfinish - 1000 * rstart ≤ 0 →
      -(-(mfinish - 1000 * rstart) / 1000) * 1000 ≥ mfinish - 1000 * rstart ∧
      -(-(mfinish - 1000 * rstart) / 1000) * 1000 < mfinish - 1000 * rstart + 1000 := by
    intro _
    omega
  generalize (mfinish - 1000 * rstart) / 1000 = f at *
  generalize -(mfinish - 1000 * rstart) / 1000 = g at *
  have h500 : mfinish - 1000 * rstart = f * 1000 + 500 := by
    rcases abs_cases (mfinish - (rstart + f) * 1000) with ⟨e1, s1⟩ | ⟨e1, s1⟩ <;>
    rcases abs_cases (mfinish - (rstart + (f + 1)) * 1000) with ⟨e2, s2⟩ | ⟨e2, s2⟩ <;>
    omega
  have hq : Int.tdiv (mfinish - 1000 * rstart) 1000 = f ∨
      Int.tdiv (mfinish - 1000 * rstart) 1000 = f + 1 := by
    rcases le_total 0 (mfinish - 1000 * rstart) with hd | hd
    · left
      exact hpos hd
    · right
      rw [hneg hd]
      have := hnegfl hd
      omega
  have hb := bitlen_of_fits bit rstart mfinish hr0 hr1 (by rw [hdd]; omega) (by
    rw [hdd]
    rcases le_total 0 (mfinish - 1000 * rstart) with hd | hd
    · rw [hpos hd]
      exact hf1
    · rw [hneg hd]
      have := hnegfl hd
      omega)
  rw [hb, hdd]
  congr 1
  rcases hq with hq | hq <;> rw [hq] <;> split_ifs with hlt
  · exfalso
    rcases abs_cases (mfinish - 1000 * rstart - f * 1000) with ⟨e1, s1⟩ | ⟨e1, s1⟩ <;>
    rcases abs_cases (mfinish - 1000 * rstart - (f + 1) * 1000) with ⟨e2, s2⟩ | ⟨e2, s2⟩ <;>
    omega
  · rfl
  · rfl
  · exfalso
    rcases abs_cases (mfinish - 1000 * rstart - (f + 1) * 1000) with ⟨e1, s1⟩ | ⟨e1, s1⟩ <;>
    rcases abs_cases (mfinish - 1000 * rstart - (f + 1 + 1) * 1000) with ⟨e2, s2⟩ | ⟨e2, s2⟩ <;>
    omega

/-- Witness of C3 (amended): start 0, ideal finish 4500 milicycles. -/
theorem C3_bitlen_tie_takes_successor_witness :
    |(4500 : Int) - (0 + (4500 - 1000 * 0) / 1000) * 1000|
        = |(4500 : Int) - (0 + ((4500 - 1000 * 0) / 1000 + 1)) * 1000| ∧
      bitlen 0 0 4500 = some ((4500 - 1000 * 0) / 1000 + 1) :=
  ⟨by decide, C3_bitlen_tie_takes_successor 0 0 4500 (by decide) (by decide) (by decide)
    (by decide) (by decide)⟩

/-! ### The time-table -/

/-- The members of an instance of `t`, read off its definition. -/
theorem entry_eq_some {c : Config} {bit : Nat} {rstart : Int} {e : Entry}
    (h : entry c bit rstart = some e) :
    e.rstart = rstart ∧
    transmitter.cycles c bit = some e.cycles ∧
    transmitter.mfinish c bit = some e.mfinish ∧
    bitlen bit rstart e.mfinish = some e.length ∧
    e.wait = (if e.length < e.cycles then 0 else e.length - e.cycles) ∧
    e.rfinish = e.rstart + e.wait + e.cycles ∧
    (-2147483648 ≤ e.rfinish ∧ e.rfinish ≤ 2147483647) ∧
    e.error = |e.mfinish - 1000 * e.rfinish| := by
  unfold entry at h
  simp only [Option.bind_eq_bind, Option.bind_eq_some, mili] at h
  obtain ⟨m, -, cy, hcy, ms, -, mf, hmf, len, hlen, w, hw, rw, hrw, rf, hrf, pf, hpf, df, hdf,
    er, her, he⟩ := h
  obtain rfl : _ = e := by simpa using he
  obtain ⟨rfl, -, -⟩ := s32_eq_some hrw
  obtain ⟨rfl, hf0, hf1⟩ := s32_eq_some hrf
  obtain ⟨rfl, -, -⟩ := s64_eq_some hpf
  obtain ⟨rfl, -, -⟩ := s64_eq_some hdf
  refine ⟨rfl, hcy, hmf, hlen, ?_, rfl, ⟨hf0, hf1⟩, abs_eq_some her⟩
  show w = _
  unfold wait_cycles at hw
  split_ifs at hw ⊢ with hlt
  · simpa using hw.symm
  · exact (s32_eq_some hw).1

theorem t_zero_eq_some {c : Config} {e : Entry} (h : t c 0 = some e) :
    entry c 0 0 = some e := by
  simpa [t, t0_rfinish] using h

theorem t_succ_eq_some {c : Config} {bit : Nat} {e : Entry} (h : t c (bit + 1) = some e) :
    ∃ p, t c bit = some p ∧ entry c (bit + 1) p.rfinish = some e := by
  simpa [t, Option.bind_eq_some] using h

/-- Any instance of `t` is computed from some `rstart`. -/
theorem t_eq_some {c : Config} {bit : Nat} {e : Entry} (h : t c bit = some e) :
    entry c bit e.rstart = some e := by
  cases bit with
  | zero =>
    have h0 := t_zero_eq_some h
    rw [(entry_eq_some h0).1]
    exact h0
  | succ b =>
    obtain ⟨p, -, hp⟩ := t_succ_eq_some h
    rw [(entry_eq_some hp).1]
    exact hp

theorem table_eq_some {c : Config} {tbl : List Entry} (h : table c = some tbl) :
    ∃ e0 e1 e2 e3 e4 e5 e6 e7 e8 e9,
      t c 0 = some e0 ∧ t c 1 = some e1 ∧ t c 2 = some e2 ∧ t c 3 = some e3 ∧
      t c 4 = some e4 ∧ t c 5 = some e5 ∧ t c 6 = some e6 ∧ t c 7 = some e7 ∧
      t c 8 = some e8 ∧ t c 9 = some e9 ∧
      tbl = [e0, e1, e2, e3, e4, e5, e6, e7, e8, e9] := by
  have hr : List.range 10 = [0, 1, 2, 3, 4, 5, 6, 7, 8, 9] := by decide
  unfold table at h
  rw [hr] at h
  simp only [List.mapM_cons, List.mapM_nil, Option.bind_eq_bind, Option.bind_eq_some,
    Option.pure_def, Option.some.injEq] at h
  obtain ⟨e0, h0, _, ⟨e1, h1, _, ⟨e2, h2, _, ⟨e3, h3, _, ⟨e4, h4, _, ⟨e5, h5, _, ⟨e6, h6, _,
    ⟨e7, h7, _, ⟨e8, h8, _, ⟨e9, h9, _, rfl, rfl⟩, rfl⟩, rfl⟩, rfl⟩, rfl⟩, rfl⟩, rfl⟩, rfl⟩,
    rfl⟩, rfl⟩ := h
  exact ⟨e0, e1, e2, e3, e4, e5, e6, e7, e8, e9, h0, h1, h2, h3, h4, h5, h6, h7, h8, h9, rfl⟩

theorem t_chain {c : Config} {bit : Nat} {p e : Entry} (hp : t c bit = some p)
    (he : t c (bit + 1) = some e) : e.rstart = p.rfinish := by
  obtain ⟨p', hp', hent⟩ := t_succ_eq_some he
  rw [hp] at hp'
  obtain rfl : p = p' := by simpa using hp'
  exact (entry_eq_some hent).1

theorem t_rfinish {c : Config} {bit : Nat} {e : Entry} (h : t c bit = some e) :
    e.rfinish = e.rstart + e.wait + e.cycles :=
  (entry_eq_some (t_eq_some h)).2.2.2.2.2.1

/-- C4: whenever the ten instances `t<0>` .. `t<9>` exist, they are chained:
the first starts at 0, each later one starts where its predecessor finishes,
and the last finish minus the first start is the sum of all `cycles` and
`wait` members. -/
theorem C4_table_chained (c : Config) (tbl : List Entry) (h : table c = some tbl) :
    tbl.length = 10 ∧
    (∀ i e, tbl[i]? = some e → t c i = some e) ∧
    (∀ e0, tbl[0]? = some e0 → e0.rstart = 0) ∧
    (∀ i p e, 1 ≤ i → i ≤ 9 → tbl[i - 1]? = some p → tbl[i]? = some e →
      e.rstart = p.rfinish) ∧
    (∀ e0 e9, tbl[0]? = some e0 → tbl[9]? = some e9 →
      e9.rfinish - e0.rstart = (tbl.map fun e => e.cycles + e.wait).sum) := by
  obtain ⟨e0, e1, e2, e3, e4, e5, e6, e7, e8, e9, h0, h1, h2, h3, h4, h5, h6, h7, h8, h9, rfl⟩ :=
    table_eq_some h
  have c1 := t_chain h0 h1
  have c2 := t_chain h1 h2
  have c3 := t_chain h2 h3
  have c4 := t_chain h3 h4
  have c5 := t_chain h4 h5
  have c6 := t_chain h5 h6
  have c7 := t_chain h6 h7
  have c8 := t_chain h7 h8
  have c9 := t_chain h8 h9
  have s0 : e0.rstart = 0 := (entry_eq_some (t_zero_eq_some h0)).1
  refine ⟨rfl, ?_, ?_, ?_, ?_⟩
  · intro i e hi
    have hlt : i < 10 := by
      by_contra hge
      have : ([e0, e1, e2, e3, e4, e5, e6, e7, e8, e9] : List Entry)[i]? = none :=
        List.getElem?_eq_none (by simpa using hge)
      rw [this] at hi
      cases hi
    interval_cases i <;> simp at hi <;> subst hi <;> assumption
  · intro e hi
    simp at hi
    subst hi
    exact s0
  · intro i p e hi1 hi9 hp he
    interval_cases i <;> simp at hp he <;> subst hp <;> subst he <;> assumption
  · intro a b ha hb
    simp at ha hb
    subst ha
    subst hb
    have r0 := t_rfinish h0
    have r1 := t_rfinish h1
    have r2 := t_rfinish h2
    have r3 := t_rfinish h3
    have r4 := t_rfinish h4
    have r5 := t_rfinish h5
    have r6 := t_rfinish h6
    have r7 := t_rfinish h7
    have r8 := t_rfinish h8
    have r9 := t_rfinish h9
    simp only [List.map_cons, List.map_nil, List.sum_cons, List.sum_nil]
    omega

/-- Witness of C4: the table of `test115k`. -/
theorem C4_table_chained_witness :
    ∃ tbl, table test115k = some tbl ∧
      tbl.length = 10 ∧
      (∀ i e, tbl[i]? = some e → t test115k i = some e) ∧
      (∀ e0, tbl[0]? = some e0 → e0.rstart = 0) ∧
      (∀ i p e, 1 ≤ i → i ≤ 9 → tbl[i - 1]? = some p → tbl[i]? = some e →
        e.rstart = p.rfinish) ∧
      (∀ e0 e9, tbl[0]? = some e0 → tbl[9]? = some e9 →
        e9.rfinish - e0.rstart = (tbl.map fun e => e.cycles + e.wait).sum) :=
  ⟨_, rfl, C4_table_chained test115k _ rfl⟩

/-- C5 (counterexample): at 4294967296 Hz and 1 baud with the AVR driver the
ideal length of `t<0>` does not fit `cycle_t`; the chosen length 1 is below
the 3 required cycles, `wait` is 0, and the actual finish 3 stays far below
the ideal finish of 4294967296000 milicycles. -/
theorem C5_counterexample :
    ∃ e, t { clock := 4294967296, baudrate := 1, driver := avr.driver,
             stopbit := stopbits.one } 0 = some e ∧
      e.length < e.cycles ∧ e.wait = 0 ∧ ¬ (1000 * e.rfinish > e.mfinish) :=
  ⟨_, rfl, by decide, by decide, by decide⟩

/-- C5 (amended): in every instance of `t` the member `wait` is
`max(0, length - cycles)`, hence never negative; and when `length < cycles`
in an instance whose ideal length `(mfinish - rstart * mili) / mili` does not
exceed the greatest `cycle_t`, `wait` is 0 and the actual finish lies
strictly after the ideal finish: `1000 * rfinish > mfinish`. -/
theorem C5_wait_and_overshoot (c : Config) (bit : Nat) (e : Entry) (h : t c bit = some e) :
    e.wait = max 0 (e.length - e.cycles) ∧ 0 ≤ e.wait ∧
    (Int.tdiv (e.mfinish - e.rstart * 1000) 1000 ≤ 2147483647 → e.length < e.cycles →
      e.wait = 0 ∧ 1000 * e.rfinish > e.mfinish) := by
  obtain ⟨-, -, -, hlen, hwait, hrf, -, -⟩ := entry_eq_some (t_eq_some h)
  have hw : e.wait = max 0 (e.length - e.cycles) := by
    rw [hwait]
    split_ifs with hlt
    · rw [max_eq_left (by omega)]
    · rw [max_eq_right (by omega)]
  refine ⟨hw, by rw [hw]; exact le_max_left _ _, ?_⟩
  intro hfit hlt
  have hw0 : e.wait = 0 := by rw [hwait, if_pos hlt]
  refine ⟨hw0, ?_⟩
  have hl := bitlen_eq_some hlen
  obtain ⟨hpos, hneg⟩ := tdiv_cases (e.mfinish - e.rstart * 1000) 1000 (by norm_num)
  have hlow : to_cycle_t (Int.tdiv (e.mfinish - e.rstart * 1000) 1000) ≤ e.length := by
    rw [hl]
    split_ifs <;> omega
  have hq : Int.tdiv (e.mfinish - e.rstart * 1000) 1000
      ≤ to_cycle_t (Int.tdiv (e.mfinish - e.rstart * 1000) 1000) := by
    unfold to_cycle_t
    omega
  have hd : e.mfinish - e.rstart * 1000
      < (Int.tdiv (e.mfinish - e.rstart * 1000) 1000 + 1) * 1000 := by
    rcases le_total 0 (e.mfinish - e.rstart * 1000) with h0 | h0
    · rw [hpos h0]
      omega
    · rw [hneg h0]
      omega
  omega

/-- Witness of C5 (amended): `t<0>` of `trans460k`, where the length 2 is
below the 3 required cycles. -/
theorem C5_wait_and_overshoot_witness :
    ∃ e, t trans460k 0 = some e ∧
      e.length < e.cycles ∧ e.wait = max 0 (e.length - e.cycles) ∧ 0 ≤ e.wait ∧
      e.wait = 0 ∧ 1000 * e.rfinish > e.mfinish :=
  ⟨_, rfl, by decide,
    (C5_wait_and_overshoot trans460k 0 _ rfl).1,
    (C5_wait_and_overshoot trans460k 0 _ rfl).2.1,
    (C5_wait_and_overshoot trans460k 0 _ rfl).2.2 (by decide) (by decide)⟩

/-! ### Static assertions -/

theorem error_assert_eq {c : Config} {bit : Nat} {e : Entry} {m : Int}
    (hm : milicycles_per_bit c = some m) (he : t c bit = some e) :
    error_assert c bit = some (decide (bit = 9) || decide (e.error ≤ Int.tdiv m 5)) := by
  simp [error_assert, hm, he]

theorem accepted_bit {c : Config} (h : accepted c = true) (bit : Nat) (hb : bit ≤ 9) :
    error_assert c bit = some true ∧ wait_assert c bit = some true ∧
      transmitter.delay_assert c bit = some true := by
  unfold accepted at h
  simp only [Bool.and_eq_true, List.all_eq_true, List.mem_range, beq_iff_eq] at h
  obtain ⟨⟨h1, h2⟩, h3⟩ := h.2 bit (by omega)
  exact ⟨h1, h2, h3⟩

/-- C6: the member `error` of `t<i>` is `|mfinish[i] - 1000 * rfinish[i]|`,
and the first assertion of `t<i>` holds exactly when `i = 9` or that error is
at most `milicycles_per_bit / 5`; so an accepted build has every error of
bits 0..8 within the bound, a bit 0..8 above the bound fails its assertion
and makes the build rejected, and the assertion of the stop entry `t<9>`
holds whatever its error. -/
theorem C6_error_assert (c : Config) (m : Int) (hm : milicycles_per_bit c = some m) :
    (∀ i e, t c i = some e →
      e.error = |e.mfinish - 1000 * e.rfinish| ∧
      (error_assert c i = some true ↔
        (i = 9 ∨ |e.mfinish - 1000 * e.rfinish| ≤ Int.tdiv m 5))) ∧
    (accepted c = true → ∀ i, i ≤ 8 → ∃ e, t c i = some e ∧
      e.error = |e.mfinish - 1000 * e.rfinish| ∧
      |e.mfinish - 1000 * e.rfinish| ≤ Int.tdiv m 5) ∧
    (∀ i e, i ≤ 8 → t c i = some e → Int.tdiv m 5 < |e.mfinish - 1000 * e.rfinish| →
      error_assert c i = some false ∧ accepted c = false) ∧
    (∀ e, t c 9 = some e → error_assert c 9 = some true) := by
  have herr : ∀ i e, t c i = some e → e.error = |e.mfinish - 1000 * e.rfinish| := by
    intro i e he
    exact (entry_eq_some (t_eq_some he)).2.2.2.2.2.2.2
  have key : ∀ i e, t c i = some e →
      (error_assert c i = some true ↔
        (i = 9 ∨ |e.mfinish - 1000 * e.rfinish| ≤ Int.tdiv m 5)) := by
    intro i e he
    rw [error_assert_eq hm he, herr i e he]
    simp
  refine ⟨fun i e he => ⟨herr i e he, key i e he⟩, ?_, ?_, ?_⟩
  · intro hacc i hi
    have ha := (accepted_bit hacc i (by omega)).1
    cases he : t c i with
    | none => simp [error_assert, hm, he] at ha
    | some e =>
      refine ⟨e, rfl, herr i e he, ?_⟩
      rcases (key i e he).1 ha with h9 | hle
      · omega
      · exact hle
  · intro i e hi he hgt
    have hfalse : error_assert c i = some false := by
      rw [error_assert_eq hm he, herr i e he]
      have h9 : i ≠ 9 := by omega
      simp [h9, hgt]
    refine ⟨hfalse, ?_⟩
    by_contra hacc
    have hacc' : accepted c = true := by simpa using hacc
    have ha := (accepted_bit hacc' i (by omega)).1
    rw [hfalse] at ha
    simp at ha
  · intro e he
    exact (key 9 e he).2 (Or.inl rfl)

/-- Witness of C6: `test115k`, with 69444 milicycles per bit, whose build is
accepted and whose errors of bits 0..8 are within 13888; and `trans460k`,
with 2170 milicycles per bit, where `t<0>` has the error `|2170 - 3000| =
830` above 434, fails its assertion and the build is rejected. -/
theorem C6_error_assert_witness :
    (milicycles_per_bit test115k = some 69444 ∧ accepted test115k = true ∧
      ∀ i, i ≤ 8 → ∃ e, t test115k i = some e ∧
        e.error = |e.mfinish - 1000 * e.rfinish| ∧
        |e.mfinish - 1000 * e.rfinish| ≤ Int.tdiv 69444 5) ∧
    (milicycles_per_bit trans460k = some 2170 ∧
      ∃ e, t trans460k 0 = some e ∧ e.error = 830 ∧
        e.error = |e.mfinish - 1000 * e.rfinish| ∧
        Int.tdiv 2170 5 < |e.mfinish - 1000 * e.rfinish| ∧
        error_assert trans460k 0 = some false ∧ accepted trans460k = false) ∧
    (∃ e, t test115k 9 = some e ∧ error_assert test115k 9 = some true) :=
  ⟨⟨by decide, by decide, (C6_error_assert test115k 69444 (by decide)).2.1 (by decide)⟩,
    ⟨by decide, _, rfl, by decide,
      ((C6_error_assert trans460k 2170 (by decide)).1 0 _ rfl).1,
      by decide,
      (C6_error_assert trans460k 2170 (by decide)).2.2.1 0 _ (by decide) rfl (by decide)⟩,
    ⟨_, rfl, (C6_error_assert test115k 69444 (by decide)).2.2.2 _ rfl⟩⟩

/-- C7 (counterexample): with the AVR driver (`send_cycles` 3, `cpi` 1) and
the baud rate 6148914691236518, the clock `3 * 1 * 6148914691236518` is a
`clock_t`, but `mili * clock` passes `2^64` and wraps to 2384: the bit period
comes out as 0 milicycles and the baud-too-high assertion fails. With a `cpi`
of 0 the clock `send_cycles * 0 * b` is 0 and the division by `cpi` leaves the
assertion without a value. -/
theorem C7_counterexample :
    (3 * 1 * 6148914691236518 : Int) < 18446744073709551616 ∧
    milicycles_per_bit { clock := 3 * 1 * 6148914691236518, baudrate := 6148914691236518,
                         driver := avr.driver, stopbit := stopbits.one } = some 0 ∧
    baud_high_assert { clock := 3 * 1 * 6148914691236518, baudrate := 6148914691236518,
                       driver := avr.driver, stopbit := stopbits.one } = some false ∧
    baud_high_assert { clock := 3 * 0 * 9600, baudrate := 9600,
                       driver := { avr.driver with
                                   mcu := { avr.mcu with cpi := 0 } },
                       stopbit := stopbits.one } = none := by
  refine ⟨by decide, by decide, by decide, by decide⟩

/-- C7 (amended): for a driver with `1 <= send_cycles` and `1 <= cpi` and a
baud rate `b > 0` such that `mili * clock` stays below `2^64` for the clock
`send_cycles * cpi * b`, the bit period is `1000 * send_cycles` milicycles and
the baud-too-high assertion holds; with the same clock and the baud rate
`b + 1` it fails. -/
theorem C7_baud_high_boundary (d : Driver) (b : Int) (sb : stopbits)
    (hs0 : 1 ≤ d.send_cycles) (hs1 : d.send_cycles ≤ 2147483647)
    (hc0 : 1 ≤ d.mcu.cpi) (hb : 0 < b)
    (hov : 1000 * (d.send_cycles * d.mcu.cpi * b) < 18446744073709551616) :
    milicycles_per_bit { clock := d.send_cycles * d.mcu.cpi * b, baudrate := b,
                         driver := d, stopbit := sb } = some (1000 * d.send_cycles) ∧
    baud_high_assert { clock := d.send_cycles * d.mcu.cpi * b, baudrate := b,
                       driver := d, stopbit := sb } = some true ∧
    baud_high_assert { clock := d.send_cycles * d.mcu.cpi * b, baudrate := b + 1,
                       driver := d, stopbit := sb } = some false := by
  obtain ⟨s, hs⟩ : ∃ s, d.send_cycles = s := ⟨_, rfl⟩
  obtain ⟨k, hk⟩ : ∃ k, d.mcu.cpi = k := ⟨_, rfl⟩
  rw [hs] at hs0 hs1 hov
  rw [hk] at hc0 hov
  simp only [hs, hk]
  have hsk : 0 < s * k := by positivity
  have hskb : 0 < s * k * b := by positivity
  have hsb : 0 < s * b := by positivity
  have hk_le : k ≤ s * k * b := by
    have h1 : 1 ≤ s * b := hsb
    nlinarith
  have hb_le : b ≤ s * k * b := by
    have h1 : 1 ≤ s * k := hsk
    nlinarith
  have hsb_le : s * b ≤ s * k * b := by nlinarith
  have hkk : to_clock_t k = k := by
    unfold to_clock_t
    exact Int.emod_eq_of_lt (by omega) (by omega)
  have hcl : to_clock_t (1000 * (s * k * b)) = 1000 * (s * k * b) := by
    unfold to_clock_t
    exact Int.emod_eq_of_lt (by omega) (by omega)
  have hd1 : Int.tdiv (1000 * (s * k * b)) k = 1000 * (s * b) := by
    rw [Int.tdiv_eq_ediv (by omega) (by omega)]
    have : 1000 * (s * k * b) = k * (1000 * (s * b)) := by ring
    rw [this]
    exact Int.mul_ediv_cancel_left _ (by omega)
  have hd2 : Int.tdiv (1000 * (s * b)) b = 1000 * s := by
    rw [Int.tdiv_eq_ediv (by omega) (by omega)]
    have : 1000 * (s * b) = (1000 * s) * b := by ring
    rw [this]
    exact Int.mul_ediv_cancel _ (by omega)
  have hd3 : Int.tdiv (1000 * (s * b)) (b + 1) < 1000 * s ∧
      0 ≤ Int.tdiv (1000 * (s * b)) (b + 1) := by
    rw [Int.tdiv_eq_ediv (by omega) (by omega)]
    constructor
    · rw [Int.ediv_lt_iff_lt_mul (by omega)]
      nlinarith
    · exact Int.ediv_nonneg (by omega) (by omega)
  have hm1 : to_milicycle_t (1000 * s) = 1000 * s := by
    unfold to_milicycle_t
    omega
  have hm2 : to_milicycle_t (Int.tdiv (1000 * (s * b)) (b + 1))
      = Int.tdiv (1000 * (s * b)) (b + 1) := by
    unfold to_milicycle_t
    omega
  have hp : s64 (1000 * s) = some (1000 * s) := s64_of_fits (by omega) (by omega)
  have hmpb : milicycles_per_bit (Config.mk (s * k * b) b d sb) = some (1000 * s) := by
    simp only [milicycles_per_bit, mili, hk, hkk, hcl, hd1, hd2, hm1]
    rw [if_neg (by omega), if_neg (by omega)]
  have hmpb' : milicycles_per_bit (Config.mk (s * k * b) (b + 1) d sb)
      = some (Int.tdiv (1000 * (s * b)) (b + 1)) := by
    simp only [milicycles_per_bit, mili, hk, hkk, hcl, hd1, hm2]
    rw [if_neg (by omega), if_neg (by omega)]
  refine ⟨hmpb, ?_, ?_⟩
  · simp only [baud_high_assert, hmpb, mili, hs, hp, Option.bind_eq_bind, Option.some_bind]
    simp
  · simp only [baud_high_assert, hmpb', mili, hs, hp, Option.bind_eq_bind, Option.some_bind]
    simp only [Option.some.injEq, decide_eq_false_iff_not, not_le, ge_iff_le]
    exact hd3.1

/-- Witness of C7 (amended): the AVR driver at 9600 baud. -/
theorem C7_baud_high_boundary_witness :
    milicycles_per_bit { clock := avr.driver.send_cycles * avr.driver.mcu.cpi * 9600,
                         baudrate := 9600, driver := avr.driver, stopbit := stopbits.one }
      = some (1000 * avr.driver.send_cycles) ∧
    baud_high_assert { clock := avr.driver.send_cycles * avr.driver.mcu.cpi * 9600,
                       baudrate := 9600, driver := avr.driver, stopbit := stopbits.one }
      = some true ∧
    baud_high_assert { clock := avr.driver.send_cycles * avr.driver.mcu.cpi * 9600,
                       baudrate := 9600 + 1, driver := avr.driver, stopbit := stopbits.one }
      = some false :=
  C7_baud_high_boundary avr.driver 9600 stopbits.one (by decide) (by decide) (by decide)
    (by decide) (by decide)

/-! ### Sending a byte -/

/-- C8 (counterexample): for `test115k` and the byte 85 the sequence worded
in the specification has a ninth `send` (bit 8) and ends with `stop`, while
`send` has eight (bits 0..7), calls `stop` after the delay of `t<8>` and ends
with the delay of `t<9>`. -/
theorem C8_counterexample :
    (∃ acts, send test115k 85 = some acts ∧
      Action.send 8 85 ∉ acts ∧ acts.getLast? = some (Action.delay 137)) ∧
    (∃ acts, send_specified test115k 85 = some acts ∧
      Action.send 8 85 ∈ acts ∧ acts.getLast? = some (Action.stop 85)) ∧
    send test115k 85 ≠ send_specified test115k 85 :=
  ⟨⟨_, rfl, by decide, by decide⟩, ⟨_, rfl, by decide, by decide⟩, by decide⟩

/-- C8 (amended): for every data byte, `send` performs exactly `start(byte)`;
then for each bit index 0..7 in increasing order `delay(wait[bit])` followed
by `send<bit>`; then `delay(wait[8])`, `stop(byte)`, and `delay(wait[9])` as
the last action. -/
theorem C8_send_sequence (c : Config) (data : Nat) (w : Nat → Int)
    (hw : ∀ bit, bit ≤ 9 → wait c bit = some (w bit)) :
    send c data = some
      (Action.start data ::
        ((List.range 8).map fun bit => [Action.delay (w bit), Action.send bit data]).flatten
        ++ [Action.delay (w 8), Action.stop data, Action.delay (w 9)]) := by
  have hr : List.range 8 = [0, 1, 2, 3, 4, 5, 6, 7] := by decide
  rw [hr]
  simp only [send, hw 0 (by omega), hw 1 (by omega), hw 2 (by omega), hw 3 (by omega),
    hw 4 (by omega), hw 5 (by omega), hw 6 (by omega), hw 7 (by omega), hw 8 (by omega),
    hw 9 (by omega), Option.bind_eq_bind, Option.some_bind]
  rfl

/-- Witness of C8 (amended): `test115k` and the byte 85. -/
theorem C8_send_sequence_witness :
    (∀ bit, bit ≤ 9 → wait test115k bit = some ((wait test115k bit).getD 0)) ∧
    send test115k 85 = some
      (Action.start 85 ::
        ((List.range 8).map fun bit =>
          [Action.delay ((wait test115k bit).getD 0), Action.send bit 85]).flatten
        ++ [Action.delay ((wait test115k 8).getD 0), Action.stop 85,
            Action.delay ((wait test115k 9).getD 0)]) :=
  ⟨by decide, C8_send_sequence test115k 85 (fun bit => (wait test115k bit).getD 0) (by decide)⟩

/-- The cycles spent by `send` against the time-table, for every
configuration whose table exists: equal to `rfinish` at the frame positions
0..7, and `rfinish - send_cycles + stop_cycles` at position 8, where `send`
executes `stop` while `t<8>::cycles` is `send_cycles`. -/
theorem elapsed_of_table (c : Config) (data : Nat) (tbl : List Entry)
    (h : table c = some tbl) :
    (∀ k e, k ≤ 7 → tbl[k]? = some e → elapsed c data k = some e.rfinish) ∧
    (∀ e, tbl[8]? = some e →
      elapsed c data 8 = some (e.rfinish - c.driver.send_cycles + c.driver.stop_cycles)) := by
  obtain ⟨e0, e1, e2, e3, e4, e5, e6, e7, e8, e9, h0, h1, h2, h3, h4, h5, h6, h7, h8, h9, rfl⟩ :=
    table_eq_some h
  have c1 := t_chain h0 h1
  have c2 := t_chain h1 h2
  have c3 := t_chain h2 h3
  have c4 := t_chain h3 h4
  have c5 := t_chain h4 h5
  have c6 := t_chain h5 h6
  have c7 := t_chain h6 h7
  have c8 := t_chain h7 h8
  have s0 : e0.rstart = 0 := (entry_eq_some (t_zero_eq_some h0)).1
  have r0 := t_rfinish h0
  have r1 := t_rfinish h1
  have r2 := t_rfinish h2
  have r3 := t_rfinish h3
  have r4 := t_rfinish h4
  have r5 := t_rfinish h5
  have r6 := t_rfinish h6
  have r7 := t_rfinish h7
  have r8 := t_rfinish h8
  have cy : ∀ bit e, 1 ≤ bit → bit ≤ 8 → t c bit = some e → e.cycles = c.driver.send_cycles := by
    intro bit e hb1 hb8 he
    have hc := (entry_eq_some (t_eq_some he)).2.1
    simp only [transmitter.cycles, if_neg (show bit ≠ 0 by omega),
      if_neg (show bit ≠ 9 by omega)] at hc
    simpa using hc.symm
  have cy0 : e0.cycles = c.driver.start_cycles + c.driver.send_cycles := by
    have hc := (entry_eq_some (t_eq_some h0)).2.1
    simp only [transmitter.cycles, if_pos] at hc
    exact (s32_eq_some hc).1
  have k1 := cy 1 e1 (by omega) (by omega) h1
  have k2 := cy 2 e2 (by omega) (by omega) h2
  have k3 := cy 3 e3 (by omega) (by omega) h3
  have k4 := cy 4 e4 (by omega) (by omega) h4
  have k5 := cy 5 e5 (by omega) (by omega) h5
  have k6 := cy 6 e6 (by omega) (by omega) h6
  have k7 := cy 7 e7 (by omega) (by omega) h7
  have k8 := cy 8 e8 (by omega) (by omega) h8
  have hsend : send c data = some [Action.start data, Action.delay e0.wait,
      Action.send 0 data, Action.delay e1.wait, Action.send 1 data, Action.delay e2.wait,
      Action.send 2 data, Action.delay e3.wait, Action.send 3 data, Action.delay e4.wait,
      Action.send 4 data, Action.delay e5.wait, Action.send 5 data, Action.delay e6.wait,
      Action.send 6 data, Action.delay e7.wait, Action.send 7 data, Action.delay e8.wait,
      Action.stop data, Action.delay e9.wait] := by
    simp only [send, wait, h0, h1, h2, h3, h4, h5, h6, h7, h8, h9,
      Option.map_some', Option.bind_eq_bind, Option.some_bind]
  constructor
  · intro k e hk he
    interval_cases k <;> simp at he <;> subst he <;>
      simp only [elapsed, hsend, Option.map_some', upto_position, List.map_cons, List.map_nil,
        List.sum_cons, List.sum_nil, Action.cost, Option.some.injEq] <;> omega
  · intro e he
    simp at he
    subst he
    simp only [elapsed, hsend, Option.map_some', upto_position, List.map_cons, List.map_nil,
      List.sum_cons, List.sum_nil, Action.cost, Option.some.injEq]
    omega

/-- C9 (the code at the failing input): for `test115k` the cycles spent by
`send` agree with `rfinish` up to frame position 7 (556 cycles), but when
`stop` completes at position 8 they are 624 while `t<8>::rfinish` is 625:
`t<8>::cycles` is `send_cycles` (3) where `send` executes `stop`
(`stop_cycles`, 2). -/
theorem C9_elapsed_at_stop :
    elapsed test115k 85 7 = some 556 ∧ (t test115k 7).map Entry.rfinish = some 556 ∧
    elapsed test115k 85 8 = some 624 ∧ (t test115k 8).map Entry.rfinish = some 625 ∧
    (t test115k 8).map Entry.cycles = some test115k.driver.send_cycles ∧
    test115k.driver.stop_cycles ≠ test115k.driver.send_cycles := by
  refine ⟨by decide, by decide, by decide, by decide, by decide, by decide⟩

/-! ### Delays of an accepted build -/

theorem delay_specialised_no_loop {r : Int} {code : List avr.Instr}
    (h : avr.delay_specialised r = some code) (count : Int) :
    avr.Instr.ldi_dec_brne count ∉ code ∧ avr.Instr.ldi_lpm_dec_brne count ∉ code := by
  have hr : 0 ≤ r ∧ r ≤ 11 := by
    by_contra hne
    have hnone : avr.delay_specialised r = none := by
      unfold avr.delay_specialised
      simp only []
      repeat (rw [if_neg (by omega)])
    rw [hnone] at h
    cases h
  obtain ⟨hr0, hr1⟩ := hr
  interval_cases r <;> norm_num [avr.delay_specialised] at h <;> subst h <;> simp

/-- The loops in the code of a delay of at most `delay<N>::max` cycles are
loaded with a count from 1 to 255. -/
theorem delay_cycles_count {n : Int} (h0 : 0 ≤ n) (h1 : n ≤ 1532) {code : List avr.Instr}
    (h : avr.delay_cycles n = some code) (count : Int)
    (hc : avr.Instr.ldi_dec_brne count ∈ code ∨ avr.Instr.ldi_lpm_dec_brne count ∈ code) :
    1 ≤ count ∧ count ≤ 255 := by
  unfold avr.delay_cycles at h
  cases hs : avr.delay_specialised n with
  | some sc =>
    rw [hs] at h
    obtain rfl : sc = code := by simpa using h
    have := delay_specialised_no_loop hs count
    tauto
  | none =>
    rw [hs] at h
    have hn : 12 ≤ n := by
      by_contra hlt
      obtain ⟨code', hc', -⟩ := delay_specialised_cost n h0 (by omega)
      rw [hs] at hc'
      cases hc'
    have hd : Int.tdiv n 3 = n / 3 := Int.tdiv_eq_ediv h0 (by norm_num)
    have hd6 : Int.tdiv n 6 = n / 6 := Int.tdiv_eq_ediv h0 (by norm_num)
    simp only [avr.loop_cycles, if_neg (not_lt.mpr h0), Option.map_eq_some'] at h
    obtain ⟨rest, hrest, rfl⟩ := h
    have hno := delay_specialised_no_loop hrest count
    by_cases hl : 765 < n
    · simp [avr.longloop, avr.loop_count, hl, hd6, hno.1, hno.2] at hc
      omega
    · simp [avr.longloop, avr.loop_count, hl, hd, hno.1, hno.2] at hc
      omega

/-- The code of a delay exists for every period that is not negative. -/
theorem delay_cycles_exists (n : Int) (h0 : 0 ≤ n) : ∃ code, avr.delay_cycles n = some code := by
  unfold avr.delay_cycles
  cases hs : avr.delay_specialised n with
  | some sc => exact ⟨sc, rfl⟩
  | none =>
    have hm3 : Int.tmod n 3 = n % 3 := Int.tmod_eq_emod h0 (by norm_num)
    have hm6 : Int.tmod n 6 = n % 6 := Int.tmod_eq_emod h0 (by norm_num)
    have hrest : ∃ rest,
        avr.delay_specialised (avr.loop_rest n (avr.longloop n)) = some rest := by
      unfold avr.loop_rest
      split_ifs
      · obtain ⟨rest, hr, -⟩ := delay_specialised_cost (Int.tmod n 6) (by omega) (by omega)
        exact ⟨rest, hr⟩
      · obtain ⟨rest, hr, -⟩ := delay_specialised_cost (Int.tmod n 3) (by omega) (by omega)
        exact ⟨rest, hr⟩
    obtain ⟨rest, hr⟩ := hrest
    simp [avr.loop_cycles, not_lt.mpr h0, hr]

theorem t_wait_nonneg {c : Config} {bit : Nat} {e : Entry} (h : t c bit = some e) :
    0 ≤ e.wait := by
  obtain ⟨-, -, -, -, hwait, -, -, -⟩ := entry_eq_some (t_eq_some h)
  rw [hwait]
  split_ifs <;> omega

/-- C10: with the mcu `avr`, a `wait` above `delay<N>::max` (1532) fails a
static assertion: the second assertion of `t<bit>` for bits 0..8, "Delay too
long" of `avr::delay<wait>` for the stop entry; either way the build is not
accepted. In an accepted build every delay of `send` is at most 1532 cycles
and its code holds no loop with a count above 255. -/
theorem C10_overlong_wait_rejected (c : Config) (hmcu : c.driver.mcu = avr.mcu) :
    (∀ bit e, bit ≤ 8 → t c bit = some e → avr.delay_max < e.wait →
      wait_assert c bit = some false) ∧
    (∀ e, t c 9 = some e → avr.delay_max < e.wait →
      avr.delay_assert e.wait = false ∧ transmitter.delay_assert c 9 = some false) ∧
    (∀ bit e, bit ≤ 9 → t c bit = some e → avr.delay_max < e.wait → accepted c = false) ∧
    (accepted c = true → ∀ data, ∃ acts, send c data = some acts ∧
      ∀ n, Action.delay n ∈ acts →
        n ≤ avr.delay_max ∧
        ∃ code, avr.delay_cycles n = some code ∧
          ∀ count, avr.Instr.ldi_dec_brne count ∈ code ∨
              avr.Instr.ldi_lpm_dec_brne count ∈ code → count ≤ 255) := by
  have hmax : avr.delay_max = 1532 := by decide
  have hcmax : c.driver.mcu.delay_max = 1532 := by rw [hmcu]; rfl
  have hdel : ∀ bit e, t c bit = some e → avr.delay_max < e.wait →
      transmitter.delay_assert c bit = some false := by
    intro bit e he hgt
    have hda : avr.delay_assert e.wait = false := by
      simp [avr.delay_assert]
      exact hgt
    simp [transmitter.delay_assert, wait, he, hmcu, avr.mcu, avr.delay_accepted, hda]
  have hwa : ∀ bit e, bit ≤ 8 → t c bit = some e → avr.delay_max < e.wait →
      wait_assert c bit = some false := by
    intro bit e hb he hgt
    have h9 : bit ≠ 9 := by omega
    rw [hmax] at hgt
    simp [wait_assert, he, hcmax, h9]
    exact hgt
  refine ⟨hwa, ?_, ?_, ?_⟩
  · intro e he hgt
    refine ⟨?_, hdel 9 e he hgt⟩
    simp [avr.delay_assert]
    exact hgt
  · intro bit e hb he hgt
    by_contra hacc
    have hacc' : accepted c = true := by simpa using hacc
    have ha := (accepted_bit hacc' bit hb).2.2
    rw [hdel bit e he hgt] at ha
    simp at ha
  · intro hacc data
    have hex : ∀ bit, bit ≤ 9 → ∃ e, t c bit = some e ∧ 0 ≤ e.wait ∧ e.wait ≤ 1532 := by
      intro bit hb
      have ha := (accepted_bit hacc bit hb).2.2
      cases he : t c bit with
      | none => simp [transmitter.delay_assert, wait, he] at ha
      | some e =>
        refine ⟨e, rfl, t_wait_nonneg he, ?_⟩
        by_contra hgt
        rw [hdel bit e he (by rw [hmax]; omega)] at ha
        simp at ha
    obtain ⟨e0, h0, p0, q0⟩ := hex 0 (by omega)
    obtain ⟨e1, h1, p1, q1⟩ := hex 1 (by omega)
    obtain ⟨e2, h2, p2, q2⟩ := hex 2 (by omega)
    obtain ⟨e3, h3, p3, q3⟩ := hex 3 (by omega)
    obtain ⟨e4, h4, p4, q4⟩ := hex 4 (by omega)
    obtain ⟨e5, h5, p5, q5⟩ := hex 5 (by omega)
    obtain ⟨e6, h6, p6, q6⟩ := hex 6 (by omega)
    obtain ⟨e7, h7, p7, q7⟩ := hex 7 (by omega)
    obtain ⟨e8, h8, p8, q8⟩ := hex 8 (by omega)
    obtain ⟨e9, h9, p9, q9⟩ := hex 9 (by omega)
    have hdelay : ∀ n : Int, 0 ≤ n → n ≤ 1532 → n ≤ avr.delay_max ∧
        ∃ code, avr.delay_cycles n = some code ∧
          ∀ count, avr.Instr.ldi_dec_brne count ∈ code ∨
              avr.Instr.ldi_lpm_dec_brne count ∈ code → count ≤ 255 := by
      intro n hn0 hn1
      refine ⟨by rw [hmax]; exact hn1, ?_⟩
      obtain ⟨code, hcode⟩ := delay_cycles_exists n hn0
      exact ⟨code, hcode, fun count hc => (delay_cycles_count hn0 hn1 hcode count hc).2⟩
    refine ⟨[Action.start data, Action.delay e0.wait, Action.send 0 data,
      Action.delay e1.wait, Action.send 1 data, Action.delay e2.wait, Action.send 2 data,
      Action.delay e3.wait, Action.send 3 data, Action.delay e4.wait, Action.send 4 data,
      Action.delay e5.wait, Action.send 5 data, Action.delay e6.wait, Action.send 6 data,
      Action.delay e7.wait, Action.send 7 data, Action.delay e8.wait, Action.stop data,
      Action.delay e9.wait], ?_, ?_⟩
    · simp only [send, wait, h0, h1, h2, h3, h4, h5, h6, h7, h8, h9,
        Option.map_some', Option.bind_eq_bind, Option.some_bind]
    intro n hn
    simp only [List.mem_cons, List.mem_singleton, Action.delay.injEq, reduceCtorEq,
      false_or, or_false, List.not_mem_nil] at hn
    rcases hn with rfl | rfl | rfl | rfl | rfl | rfl | rfl | rfl | rfl | rfl <;>
      apply hdelay <;> assumption

/-- Witness of C10: `test115k`, whose mcu is `avr` and whose build is
accepted. -/
theorem C10_overlong_wait_rejected_witness :
    test115k.driver.mcu = avr.mcu ∧ accepted test115k = true ∧
    ∀ data, ∃ acts, send test115k data = some acts ∧
      ∀ n, Action.delay n ∈ acts →
        n ≤ avr.delay_max ∧
        ∃ code, avr.delay_cycles n = some code ∧
          ∀ count, avr.Instr.ldi_dec_brne count ∈ code ∨
              avr.Instr.ldi_lpm_dec_brne count ∈ code → count ≤ 255 :=
  ⟨rfl, by decide, (C10_overlong_wait_rejected test115k rfl).2.2.2 (by decide)⟩

/-! ### Linear form of `bitlen` -/

/-- The comparison of `best` for a candidate and its successor: the candidate
is strictly nearer exactly when the goal is less than half a cycle above
it. -/
theorem nearer_iff (x w : Int) :
    |x - w * 1000| < |x - (w + 1) * 1000| ↔ x - w * 1000 < 500 := by
  rcases abs_cases (x - w * 1000) with ⟨e1, s1⟩ | ⟨e1, s1⟩ <;>
  rcases abs_cases (x - (w + 1) * 1000) with ⟨e2, s2⟩ | ⟨e2, s2⟩ <;>
  constructor <;> intro h <;> omega

/-- What `bitlen` returns, in linear form: with `q` the truncated quotient of
the ideal length and `w = q - k * 2^32` its conversion to `cycle_t`, the
result is `w` when the goal is less than 500 milicycles above `w`, and `w + 1`
otherwise. -/
theorem bitlen_eq_some_lin {bit : Nat} {rstart mfinish l : Int}
    (h : bitlen bit rstart mfinish = some l) :
    ∃ q k : Int,
      ((0 ≤ mfinish - rstart * 1000 ∧ 0 ≤ mfinish - rstart * 1000 - 1000 * q ∧
          mfinish - rstart * 1000 - 1000 * q ≤ 999) ∨
       (mfinish - rstart * 1000 ≤ 0 ∧ -999 ≤ mfinish - rstart * 1000 - 1000 * q ∧
          mfinish - rstart * 1000 - 1000 * q ≤ 0)) ∧
      -2147483648 ≤ q - k * 4294967296 ∧ q - k * 4294967296 ≤ 2147483646 ∧
      ((mfinish - rstart * 1000 - (q - k * 4294967296) * 1000 < 500 ∧
          l = q - k * 4294967296) ∨
       (500 ≤ mfinish - rstart * 1000 - (q - k * 4294967296) * 1000 ∧
          l = q - k * 4294967296 + 1)) := by
  have hl := bitlen_eq_some h
  have hb : to_cycle_t (Int.tdiv (mfinish - rstart * 1000) 1000) ≤ 2147483646 := by
    unfold bitlen at h
    simp only [Option.bind_eq_bind, Option.bind_eq_some] at h
    obtain ⟨a, ha, b, hb, -⟩ := h
    obtain ⟨rfl, -, -⟩ := timing_eq_some ha
    have := (s32_eq_some hb).2.2
    omega
  obtain ⟨hpos, hneg⟩ := tdiv_cases (mfinish - rstart * 1000) 1000 (by norm_num)
  simp only [nearer_iff] at hl
  refine ⟨Int.tdiv (mfinish - rstart * 1000) 1000,
    (Int.tdiv (mfinish - rstart * 1000) 1000 + 2147483648) / 4294967296, ?_, ?_, ?_, ?_⟩
  · rcases le_total 0 (mfinish - rstart * 1000) with hd | hd
    · left
      rw [hpos hd]
      omega
    · right
      rw [hneg hd]
      omega
  · omega
  · unfold to_cycle_t at hb
    omega
  · have hw : to_cycle_t (Int.tdiv (mfinish - rstart * 1000) 1000)
        = Int.tdiv (mfinish - rstart * 1000) 1000
          - (Int.tdiv (mfinish - rstart * 1000) 1000 + 2147483648) / 4294967296 * 4294967296 := by
      unfold to_cycle_t
      omega
    rw [hw] at hl
    split_ifs at hl with hc
    · left
      exact ⟨hc, hl⟩
    · right
      exact ⟨by omega, hl⟩

/-- Two instances of `t` with the same ideal finish: after the first, the
second finds nothing left to wait for. -/
theorem bitlen_twice {b8 b9 : Nat} {M R7 S T L8 L9 : Int} (hR7 : 0 ≤ R7) (hS : 0 ≤ S) (hT : 0 ≤ T)
    (h8 : bitlen b8 R7 M = some L8)
    (hR8 : R7 + (if L8 < S then 0 else L8 - S) + S ≤ 2147483647)
    (h9 : bitlen b9 (R7 + (if L8 < S then 0 else L8 - S) + S) M = some L9)
    (hR9 : R7 + (if L8 < S then 0 else L8 - S) + S + (if L9 < T then 0 else L9 - T) + T
      ≤ 2147483647) :
    (if L9 < T then 0 else L9 - T) = 0 := by
  obtain ⟨q8, k8, hq8, hw8, hw8', hl8⟩ := bitlen_eq_some_lin h8
  obtain ⟨q9, k9, hq9, hw9, hw9', hl9⟩ := bitlen_eq_some_lin h9
  split_ifs at hR8 h9 hq9 hl9 hR9 ⊢ <;> omega

/-! ### Tracking of the ideal schedule -/

theorem mfinish_data {c : Config} {m : Int} (hm : milicycles_per_bit c = some m) {bit : Nat}
    (hb : bit ≠ 9) {x : Int} (h : transmitter.mfinish c bit = some x) : x = m * (bit + 1) := by
  simp only [transmitter.mfinish, hm, Option.bind_eq_bind, Option.some_bind, if_neg hb] at h
  exact (s64_eq_some h).1

theorem mfinish_stop {c : Config} {m : Int} (hm : milicycles_per_bit c = some m) {x : Int}
    (h : transmitter.mfinish c 9 = some x) :
    x = m * 9 + Int.tdiv (m * c.stopbit.val) 2 := by
  simp only [transmitter.mfinish, hm, Option.bind_eq_bind, Option.some_bind, if_pos,
    Option.bind_eq_some] at h
  obtain ⟨a, ha, b, hb, hx⟩ := h
  obtain ⟨rfl, -, -⟩ := s64_eq_some ha
  obtain ⟨rfl, -, -⟩ := s64_eq_some hb
  have := (s64_eq_some hx).1
  simpa using this

theorem cycles_data {c : Config} {bit : Nat} (h0 : bit ≠ 0) (h9 : bit ≠ 9) {x : Int}
    (h : transmitter.cycles c bit = some x) : x = c.driver.send_cycles := by
  simp only [transmitter.cycles, if_neg h0, if_neg h9] at h
  simpa using h.symm

theorem cycles_start {c : Config} {x : Int} (h : transmitter.cycles c 0 = some x) :
    x = c.driver.start_cycles + c.driver.send_cycles := by
  simp only [transmitter.cycles, if_pos] at h
  exact (s32_eq_some h).1

theorem cycles_stop {c : Config} {x : Int} (h : transmitter.cycles c 9 = some x) :
    x = c.driver.stop_cycles := by
  simp [transmitter.cycles] at h
  exact h.symm

/-- One step of the schedule for a driver without start cost whose `send`
fits the bit period: an instance `t<bit>`, `bit <= 8`, that starts within
half a cycle of the ideal start has a length of at least its cycles and
finishes within half a cycle of the ideal finish. -/
theorem entry_tracks {c : Config} {m : Int} (hm : milicycles_per_bit c = some m)
    (hstart : c.driver.start_cycles = 0) (hsend : 0 ≤ c.driver.send_cycles)
    (hhigh : 1000 * c.driver.send_cycles ≤ m) (hfit : m ≤ 2147483646999)
    {bit : Nat} (hbit : bit ≤ 8) {rstart : Int}
    (hr0 : -500 ≤ m * bit - 1000 * rstart) (hr1 : m * bit - 1000 * rstart < 500)
    {e : Entry} (h : entry c bit rstart = some e) :
    e.mfinish = m * (bit + 1) ∧ e.cycles = c.driver.send_cycles ∧
    e.cycles ≤ e.length ∧ e.wait = e.length - e.cycles ∧
    e.rfinish = rstart + e.length ∧ e.error ≤ 500 ∧
    -500 ≤ m * (bit + 1) - 1000 * e.rfinish ∧ m * (bit + 1) - 1000 * e.rfinish < 500 := by
  obtain ⟨hrs, hcy, hmf, hlen, hwait, hrf, -, herr⟩ := entry_eq_some h
  have hmf' := mfinish_data hm (show bit ≠ 9 by omega) hmf
  have hcy' : e.cycles = c.driver.send_cycles := by
    by_cases hb0 : bit = 0
    · subst hb0
      rw [cycles_start hcy, hstart]
      omega
    · exact cycles_data hb0 (by omega) hcy
  obtain ⟨q, k, hq, hw0, hw1, hl⟩ := bitlen_eq_some_lin hlen
  have hexp : m * ((bit : Int) + 1) = m * bit + m := by ring
  have hlen_ge : e.cycles ≤ e.length := by omega
  have hwait' : e.wait = e.length - e.cycles := by
    rw [hwait, if_neg (by omega)]
  have hrf' : e.rfinish = rstart + e.length := by omega
  refine ⟨hmf', hcy', hlen_ge, hwait', hrf', ?_, ?_, ?_⟩
  · rw [herr, abs_le]
    constructor <;> omega
  · omega
  · omega

/-- Under the hypotheses of `entry_tracks` every instance `t<bit>` with
`bit <= 8` starts and finishes within half a cycle of the ideal schedule. -/
theorem t_tracks {c : Config} {m : Int} (hm : milicycles_per_bit c = some m)
    (hstart : c.driver.start_cycles = 0) (hsend : 0 ≤ c.driver.send_cycles)
    (hhigh : 1000 * c.driver.send_cycles ≤ m) (hfit : m ≤ 2147483646999) :
    ∀ (bit : Nat), bit ≤ 8 → ∀ e, t c bit = some e →
      (-500 ≤ m * bit - 1000 * e.rstart ∧ m * bit - 1000 * e.rstart < 500) ∧
      e.mfinish = m * (bit + 1) ∧ e.cycles = c.driver.send_cycles ∧
      e.cycles ≤ e.length ∧ e.wait = e.length - e.cycles ∧
      e.rfinish = e.rstart + e.length ∧ e.error ≤ 500 ∧
      -500 ≤ m * (bit + 1) - 1000 * e.rfinish ∧ m * (bit + 1) - 1000 * e.rfinish < 500 := by
  intro bit
  induction bit with
  | zero =>
    intro _ e he
    have h0 := t_zero_eq_some he
    have hrs : e.rstart = 0 := (entry_eq_some h0).1
    have hr : -500 ≤ m * ((0 : Nat) : Int) - 1000 * e.rstart ∧
        m * ((0 : Nat) : Int) - 1000 * e.rstart < 500 := by
      rw [hrs]
      simp
    rw [← hrs] at h0
    exact ⟨hr, entry_tracks hm hstart hsend hhigh hfit (by omega) hr.1 hr.2 h0⟩
  | succ b ih =>
    intro hb e he
    obtain ⟨p, hp, hent⟩ := t_succ_eq_some he
    obtain ⟨-, -, -, -, -, -, -, hp0, hp1⟩ := ih (by omega) p hp
    have hrs : e.rstart = p.rfinish := (entry_eq_some hent).1
    have hr : -500 ≤ m * ((b + 1 : Nat) : Int) - 1000 * e.rstart ∧
        m * ((b + 1 : Nat) : Int) - 1000 * e.rstart < 500 := by
      rw [hrs]
      push_cast
      exact ⟨hp0, hp1⟩
    rw [← hrs] at hent
    exact ⟨hr, entry_tracks hm hstart hsend hhigh hfit hb hr.1 hr.2 hent⟩

/-- Existence of one step of the schedule: for a bit period of at most
200000000000 milicycles every member of `t<bit>`, `bit <= 8`, has a value. -/
theorem entry_exists {c : Config} {m : Int} (hm : milicycles_per_bit c = some m)
    (hstart : c.driver.start_cycles = 0) (hsend : 0 ≤ c.driver.send_cycles)
    (hhigh : 1000 * c.driver.send_cycles ≤ m) (hsmall : m ≤ 200000000000)
    (bit : Nat) (hbit : bit ≤ 8) (rstart : Int)
    (hr0 : -500 ≤ m * bit - 1000 * rstart) (hr1 : m * bit - 1000 * rstart < 500) :
    ∃ e, entry c bit rstart = some e := by
  have hm0 : 0 ≤ m := by omega
  have hP0 : 0 ≤ m * (bit : Int) := by positivity
  have hP1 : m * (bit : Int) ≤ 8 * m := by
    have : (bit : Int) ≤ 8 := by exact_mod_cast hbit
    nlinarith
  have hexp : m * ((bit : Int) + 1) = m * bit + m := by ring
  have hc : transmitter.cycles c bit = some c.driver.send_cycles := by
    unfold transmitter.cycles
    by_cases hb0 : bit = 0
    · rw [if_pos hb0, hstart, zero_add]
      exact s32_of_fits (by omega) (by omega)
    · rw [if_neg hb0, if_neg (by omega)]
  have hms : s64 (m * (bit : Int)) = some (m * bit) := s64_of_fits (by omega) (by omega)
  have hmf : transmitter.mfinish c bit = some (m * (bit + 1)) := by
    simp only [transmitter.mfinish, hm, Option.bind_eq_bind, Option.some_bind,
      if_neg (show bit ≠ 9 by omega)]
    exact s64_of_fits (by omega) (by omega)
  obtain ⟨hpos, hneg⟩ := tdiv_cases (m * ((bit : Int) + 1) - rstart * 1000) 1000 (by norm_num)
  have hbl := bitlen_of_fits bit rstart (m * (bit + 1)) (by omega) (by omega)
    (by
      rcases le_total 0 (m * ((bit : Int) + 1) - rstart * 1000) with hd | hd
      · rw [hpos hd]; omega
      · rw [hneg hd]; omega)
    (by
      rcases le_total 0 (m * ((bit : Int) + 1) - rstart * 1000) with hd | hd
      · rw [hpos hd]; omega
      · rw [hneg hd]; omega)
  obtain ⟨L, hL⟩ : ∃ L, bitlen bit rstart (m * (bit + 1)) = some L := ⟨_, hbl⟩
  obtain ⟨q, k, hq, hw0, hw1, hl⟩ := bitlen_eq_some_lin hL
  have hLge : ¬ L < c.driver.send_cycles := by omega
  have hwc : wait_cycles L c.driver.send_cycles = some (L - c.driver.send_cycles) := by
    unfold wait_cycles
    rw [if_neg hLge]
    exact s32_of_fits (by omega) (by omega)
  have h1 : s32 (rstart + (L - c.driver.send_cycles)) = some (rstart + (L - c.driver.send_cycles)) :=
    s32_of_fits (by omega) (by omega)
  have h2 : s32 (rstart + (L - c.driver.send_cycles) + c.driver.send_cycles)
      = some (rstart + (L - c.driver.send_cycles) + c.driver.send_cycles) :=
    s32_of_fits (by omega) (by omega)
  have h3 : s64 (1000 * (rstart + (L - c.driver.send_cycles) + c.driver.send_cycles))
      = some (1000 * (rstart + (L - c.driver.send_cycles) + c.driver.send_cycles)) :=
    s64_of_fits (by omega) (by omega)
  have h4 : s64 (m * (bit + 1) - 1000 * (rstart + (L - c.driver.send_cycles) + c.driver.send_cycles))
      = some (m * (bit + 1) - 1000 * (rstart + (L - c.driver.send_cycles) + c.driver.send_cycles)) :=
    s64_of_fits (by omega) (by omega)
  have h5 := abs_of_fits
    (v := m * (bit + 1) - 1000 * (rstart + (L - c.driver.send_cycles) + c.driver.send_cycles))
    (by omega)
  simp only [entry, hm, hc, hms, hmf, hL, hwc, h1, h2, h3, h4, h5, mili, Option.bind_eq_bind,
    Option.some_bind]
  exact ⟨_, rfl⟩

/-- Existence of the schedule up to the last data bit. -/
theorem t_exists {c : Config} {m : Int} (hm : milicycles_per_bit c = some m)
    (hstart : c.driver.start_cycles = 0) (hsend : 0 ≤ c.driver.send_cycles)
    (hhigh : 1000 * c.driver.send_cycles ≤ m) (hsmall : m ≤ 200000000000) :
    ∀ (bit : Nat), bit ≤ 8 → ∃ e, t c bit = some e := by
  intro bit
  induction bit with
  | zero =>
    intro _
    obtain ⟨e, he⟩ := entry_exists hm hstart hsend hhigh hsmall 0 (by omega) 0
      (by simp) (by simp)
    exact ⟨e, by simpa [t, t0_rfinish] using he⟩
  | succ b ih =>
    intro hb
    obtain ⟨p, hp⟩ := ih (by omega)
    obtain ⟨-, -, -, -, -, -, -, hp0, hp1⟩ :=
      t_tracks hm hstart hsend hhigh (by omega) b (by omega) p hp
    obtain ⟨e, he⟩ := entry_exists hm hstart hsend hhigh hsmall (b + 1) hb p.rfinish
      (by push_cast; exact hp0) (by push_cast; exact hp1)
    exact ⟨e, by simp [t, hp, he]⟩

/-! ### Choice and size of the delay loop -/

/-- C11 (counterexample): for 766 cycles the short loop still fits 255
iterations and leaves the remainder 1, yet the long loop is used, which
leaves the remainder 4. -/
theorem C11_counterexample :
    avr.longloop 766 = true ∧ avr.loop_count 766 false = 255 ∧
    avr.loop_rest 766 false = 1 ∧ avr.loop_rest 766 (avr.longloop 766) = 4 ∧
    ¬ (∀ long : Bool, avr.loop_count 766 long ≤ 255 →
        avr.loop_rest 766 (avr.longloop 766) ≤ avr.loop_rest 766 long) := by
  refine ⟨by decide, by decide, by decide, by decide, ?_⟩
  intro h
  have := h false (by decide)
  revert this
  decide

/-- C11 (amended): for every `n` from 12 to 1532 the code of `delay<n>` starts
with the long loop (count `n / 6`) exactly when `n > 765` and with the short
loop (count `n / 3`) otherwise; and for every such `n` other than 766 and 767
the loop used has the smallest remainder among the loop classes whose count
does not exceed 255. -/
theorem C11_loop_choice (n : Int) (h0 : 12 ≤ n) (h1 : n ≤ 1532) :
    (avr.longloop n = true ↔ 765 < n) ∧
    (∃ rest, avr.delay_cycles n = some
      ((if 765 < n then avr.Instr.ldi_lpm_dec_brne (n / 6)
        else avr.Instr.ldi_dec_brne (n / 3)) :: rest)) ∧
    (n ≠ 766 → n ≠ 767 → ∀ long : Bool, avr.loop_count n long ≤ 255 →
      avr.loop_rest n (avr.longloop n) ≤ avr.loop_rest n long) := by
  have hn0 : 0 ≤ n := by omega
  have hd3 : Int.tdiv n 3 = n / 3 := Int.tdiv_eq_ediv hn0 (by norm_num)
  have hd6 : Int.tdiv n 6 = n / 6 := Int.tdiv_eq_ediv hn0 (by norm_num)
  have hm3 : Int.tmod n 3 = n % 3 := Int.tmod_eq_emod hn0 (by norm_num)
  have hm6 : Int.tmod n 6 = n % 6 := Int.tmod_eq_emod hn0 (by norm_num)
  have hlong : avr.longloop n = true ↔ 765 < n := by
    simp [avr.longloop]
  refine ⟨hlong, ?_, ?_⟩
  · by_cases hl : 765 < n
    · obtain ⟨rest, hr, -⟩ := delay_specialised_cost (n % 6) (by omega) (by omega)
      refine ⟨rest, ?_⟩
      simp [avr.delay_cycles, delay_specialised_none n h0, avr.loop_cycles, avr.longloop,
        avr.loop_rest, avr.loop_count, hl, hd6, hm6, hr, not_lt.mpr hn0]
    · obtain ⟨rest, hr, -⟩ := delay_specialised_cost (n % 3) (by omega) (by omega)
      refine ⟨rest, ?_⟩
      simp [avr.delay_cycles, delay_specialised_none n h0, avr.loop_cycles, avr.longloop,
        avr.loop_rest, avr.loop_count, hl, hd3, hm3, hr, not_lt.mpr hn0]
  · intro h766 h767 long hcount
    by_cases hl : 765 < n
    · have hll : avr.longloop n = true := hlong.2 hl
      cases long with
      | true => rw [hll]
      | false =>
        exfalso
        simp only [avr.loop_count, hd3] at hcount
        simp at hcount
        omega
    · have hll : avr.longloop n = false := by
        simpa [avr.longloop] using hl
      cases long with
      | false => rw [hll]
      | true =>
        rw [hll]
        simp only [avr.loop_rest, hm3, hm6]
        simp
        omega

/-- Witness of C11 (amended): 1000 cycles. -/
theorem C11_loop_choice_witness :
    (avr.longloop 1000 = true ↔ (765 : Int) < 1000) ∧
    (∃ rest, avr.delay_cycles 1000 = some
      ((if (765 : Int) < 1000 then avr.Instr.ldi_lpm_dec_brne (1000 / 6)
        else avr.Instr.ldi_dec_brne (1000 / 3)) :: rest)) ∧
    ((1000 : Int) ≠ 766 → (1000 : Int) ≠ 767 → ∀ long : Bool,
      avr.loop_count 1000 long ≤ 255 →
      avr.loop_rest 1000 (avr.longloop 1000) ≤ avr.loop_rest 1000 long) :=
  C11_loop_choice 1000 (by decide) (by decide)

/-! ### The scenarios of the examples -/

/-- C12: at 8 MHz and 115200 baud with the AVR driver costs and one stop bit
the bit period is 69444 milicycles, the error of every entry 0..8 is at most
`69444 / 5 = 13888`, and none of the ten `wait` values is negative. -/
theorem C12_scenario_115200 :
    milicycles_per_bit { test115k with stopbit := stopbits.one } = some 69444 ∧
    Int.tdiv 69444 5 = 13888 ∧
    (∀ i, i ≤ 8 → ∃ e, t { test115k with stopbit := stopbits.one } i = some e ∧
      e.error ≤ Int.tdiv 69444 5) ∧
    (∀ i, i ≤ 9 → ∃ e, t { test115k with stopbit := stopbits.one } i = some e ∧
      0 ≤ e.wait) := by
  refine ⟨by decide, by decide, ?_, ?_⟩
  · intro i hi
    interval_cases i <;> exact ⟨_, rfl, by decide⟩
  · intro i hi
    interval_cases i <;> exact ⟨_, rfl, by decide⟩

/-- C13: at 1 MHz with the AVR driver and one stop bit, 230400 baud gives 4340
milicycles per bit and meets every static assertion: both on the baud rate
and both of every `t<bit>`, so the build is accepted; 230400 is the greatest
standard baud rate whose build is accepted, and at 460800 and 921600 the
baud-too-high assertion fails. -/
theorem C13_trans_maximal_baudrate :
    milicycles_per_bit trans = some 4340 ∧
    baud_high_assert trans = some true ∧ baud_low_assert trans = some true ∧
    (∀ bit, bit ≤ 9 → error_assert trans bit = some true ∧ wait_assert trans bit = some true) ∧
    accepted trans = true ∧
    (∀ b ∈ baudrate.standard, accepted { trans with baudrate := b } = true → b ≤ 230400) ∧
    baud_high_assert { trans with baudrate := 460800 } = some false ∧
    baud_high_assert { trans with baudrate := 921600 } = some false := by
  refine ⟨by decide, by decide, by decide, by decide, by decide, by decide, by decide,
    by decide⟩

/-! ### The stop entry without stop bits -/

/-- With costs that are not negative no instance of `t` starts or finishes
before cycle 0. -/
theorem t_rstart_nonneg {c : Config} (h0 : 0 ≤ c.driver.start_cycles)
    (h1 : 0 ≤ c.driver.send_cycles) (h2 : 0 ≤ c.driver.stop_cycles) :
    ∀ (bit : Nat) e, t c bit = some e → 0 ≤ e.rstart ∧ 0 ≤ e.rfinish := by
  have hcy : ∀ (bit : Nat) (x : Int), transmitter.cycles c bit = some x → 0 ≤ x := by
    intro bit x hx
    unfold transmitter.cycles at hx
    split_ifs at hx
    · rw [(s32_eq_some hx).1]
      omega
    · obtain rfl : c.driver.stop_cycles = x := by simpa using hx
      exact h2
    · obtain rfl : c.driver.send_cycles = x := by simpa using hx
      exact h1
  intro bit
  induction bit with
  | zero =>
    intro e he
    obtain ⟨hrs, hc, -, -, -, hrf, -, -⟩ := entry_eq_some (t_zero_eq_some he)
    have := hcy 0 _ hc
    have := t_wait_nonneg he
    exact ⟨by omega, by omega⟩
  | succ b ih =>
    intro e he
    obtain ⟨p, hp, hent⟩ := t_succ_eq_some he
    obtain ⟨hrs, hc, -, -, -, hrf, -, -⟩ := entry_eq_some hent
    have := hcy _ _ hc
    have := t_wait_nonneg he
    have := (ih p hp).2
    exact ⟨by omega, by omega⟩

/-- C14: with `stopbits::none` and driver costs that are not negative, the
stop entry has nothing to wait for: whenever `t<9>` exists, `t<9>::wait` is
0. -/
theorem C14_no_stop_bit_no_wait (c : Config) (e : Entry) (hs : c.stopbit = stopbits.none)
    (h0 : 0 ≤ c.driver.start_cycles) (h1 : 0 ≤ c.driver.send_cycles)
    (h2 : 0 ≤ c.driver.stop_cycles) (h : t c 9 = some e) : e.wait = 0 := by
  obtain ⟨p, hp, hent⟩ := t_succ_eq_some h
  have hpe := t_eq_some hp
  obtain ⟨-, hpc, hpm, hpl, hpw, hpr, ⟨-, hpr1⟩, -⟩ := entry_eq_some hpe
  obtain ⟨hrs, hec, hem, hel, hew, her, ⟨-, her1⟩, -⟩ := entry_eq_some hent
  obtain ⟨m, hm⟩ : ∃ m, milicycles_per_bit c = some m := by
    cases hmm : milicycles_per_bit c with
    | none => simp [entry, hmm] at hent
    | some m => exact ⟨m, rfl⟩
  have hpm' := mfinish_data hm (show (8 : Nat) ≠ 9 by decide) hpm
  have hem' := mfinish_stop hm hem
  have hsame : e.mfinish = p.mfinish := by
    rw [hem', hpm', hs]
    simp [stopbits.val]
  have hpc' := cycles_data (show (8 : Nat) ≠ 0 by decide) (show (8 : Nat) ≠ 9 by decide) hpc
  have hec' := cycles_stop hec
  have hR7 := (t_rstart_nonneg h0 h1 h2 8 p hp).1
  rw [hpc'] at hpw hpr
  rw [hec'] at hew her
  rw [hsame, hpr, hpw] at hel
  rw [hpr, hpw] at hpr1
  rw [hrs, hpr, hpw, hew] at her
  rw [her] at her1
  rw [hew]
  exact bitlen_twice hR7 h1 h2 hpl hpr1 hel her1

/-- Witness of C14: the transmitter of `dbg_putc`. -/
theorem C14_no_stop_bit_no_wait_witness :
    ∃ e, t dbg_putc 9 = some e ∧ e.wait = 0 :=
  ⟨_, rfl, C14_no_stop_bit_no_wait dbg_putc _ rfl (by decide) (by decide) (by decide) rfl⟩

/-! ### The candidates of `bitlen` and the bit period -/

/-- C15 (counterexample): with actual start 1 and ideal finish 500 milicycles
the ideal length is -500 milicycles; `timing` returns 0, the quotient
truncated towards zero, and `1000 * 0 <= -500` is false: 0 is not the floor
(which is -1). And with start 0 and ideal finish 4294967296000 milicycles the
quotient leaves `cycle_t`: `timing` returns 0 again, far below the ideal
length. -/
theorem C15_counterexample :
    timing 0 1 500 = some 0 ∧
    ¬ ((1000 : Int) * 0 ≤ 500 - 1000 * 1 ∧ (500 : Int) - 1000 * 1 < 1000 * (0 + 1)) ∧
    (500 - 1000 * 1 : Int) / 1000 = -1 ∧
    timing 0 0 4294967296000 = some 0 ∧
    ¬ ((1000 : Int) * 0 ≤ 4294967296000 - 1000 * 0 ∧
        (4294967296000 : Int) - 1000 * 0 < 1000 * (0 + 1)) := by
  refine ⟨by decide, by decide, by decide, by decide, by decide⟩

/-- C15 (amended): for an actual start of type `cycle_t` and an ideal length
`mfinish - 1000 * rstart` within `cycle_t` (at least -2147483648 and below
2147483647 cycles), the candidates that `bitlen` compares are
`a = timing(bit, rstart, mfinish)` and `a + 1`, where `a` is the ideal length
truncated towards zero: its floor when the ideal finish is not before the
actual start, and otherwise its ceiling, `1000 * (a - 1) < mfinish -
1000 * rstart <= 1000 * a`. -/
theorem C15_timing_truncates (bit : Nat) (rstart mfinish : Int)
    (hr0 : -2147483648 ≤ rstart) (hr1 : rstart ≤ 2147483647)
    (hd0 : -2147483648000 ≤ mfinish - 1000 * rstart)
    (hd1 : mfinish - 1000 * rstart < 2147483647000) :
    ∃ a, timing bit rstart mfinish = some a ∧
      bitlen bit rstart mfinish = best mfinish rstart a (a + 1) ∧
      (0 ≤ mfinish - 1000 * rstart →
        1000 * a ≤ mfinish - 1000 * rstart ∧ mfinish - 1000 * rstart < 1000 * (a + 1)) ∧
      (mfinish - 1000 * rstart < 0 →
        1000 * (a - 1) < mfinish - 1000 * rstart ∧ mfinish - 1000 * rstart ≤ 1000 * a) := by
  have hdd : mfinish - rstart * 1000 = mfinish - 1000 * rstart := by ring
  obtain ⟨hpos, hneg⟩ := tdiv_cases (mfinish - 1000 * rstart) 1000 (by norm_num)
  have hq : -2147483648 ≤ Int.tdiv (mfinish - 1000 * rstart) 1000 ∧
      Int.tdiv (mfinish - 1000 * rstart) 1000 ≤ 2147483646 ∧
      (0 ≤ mfinish - 1000 * rstart →
        1000 * Int.tdiv (mfinish - 1000 * rstart) 1000 ≤ mfinish - 1000 * rstart ∧
        mfinish - 1000 * rstart < 1000 * (Int.tdiv (mfinish - 1000 * rstart) 1000 + 1)) ∧
      (mfinish - 1000 * rstart < 0 →
        1000 * (Int.tdiv (mfinish - 1000 * rstart) 1000 - 1) < mfinish - 1000 * rstart ∧
        mfinish - 1000 * rstart ≤ 1000 * Int.tdiv (mfinish - 1000 * rstart) 1000) := by
    rcases le_total 0 (mfinish - 1000 * rstart) with hd | hd
    · rw [hpos hd]
      omega
    · rw [hneg hd]
      omega
  obtain ⟨hq0, hq1, hfl, hce⟩ := hq
  have ht : timing bit rstart mfinish = some (Int.tdiv (mfinish - 1000 * rstart) 1000) := by
    have hp : s64 (rstart * 1000) = some (rstart * 1000) := s64_of_fits (by omega) (by omega)
    have hd : s64 (mfinish - rstart * 1000) = some (mfinish - rstart * 1000) :=
      s64_of_fits (by omega) (by omega)
    simp only [timing, mili, hp, hd, Option.bind_eq_bind, Option.some_bind]
    rw [hdd, to_cycle_t_of_fits hq0 (by omega)]
  refine ⟨_, ht, ?_, hfl, hce⟩
  simp only [bitlen, ht, Option.bind_eq_bind, Option.some_bind,
    s32_of_fits (show -2147483648 ≤ Int.tdiv (mfinish - 1000 * rstart) 1000 + 1 by omega)
      (show Int.tdiv (mfinish - 1000 * rstart) 1000 + 1 ≤ 2147483647 by omega)]

/-- Witness of C15 (amended): start 139, ideal finish 138500 milicycles, an
ideal length of -500 milicycles. -/
theorem C15_timing_truncates_witness :
    ∃ a, timing 2 139 138500 = some a ∧
      bitlen 2 139 138500 = best 138500 139 a (a + 1) ∧
      ((0 : Int) ≤ 138500 - 1000 * 139 →
        1000 * a ≤ 138500 - 1000 * 139 ∧ 138500 - 1000 * 139 < 1000 * (a + 1)) ∧
      ((138500 : Int) - 1000 * 139 < 0 →
        1000 * (a - 1) < 138500 - 1000 * 139 ∧ 138500 - 1000 * 139 ≤ 1000 * a) :=
  C15_timing_truncates 2 139 138500 (by decide) (by decide) (by decide) (by decide)

/-- Two floor divisions by positive numbers in a row divide by the product. -/
theorem ediv_ediv_pos (a k b : Int) (hk : 0 < k) (hb : 0 < b) : a / k / b = a / (k * b) := by
  have hkb : 0 < k * b := by positivity
  apply le_antisymm
  · rw [Int.le_ediv_iff_mul_le hkb]
    have h1 : a / k / b * b ≤ a / k := Int.ediv_mul_le _ (ne_of_gt hb)
    have h2 : a / k * k ≤ a := Int.ediv_mul_le _ (ne_of_gt hk)
    calc a / k / b * (k * b) = a / k / b * b * k := by ring
      _ ≤ a / k * k := by nlinarith
      _ ≤ a := h2
  · rw [Int.le_ediv_iff_mul_le hb, Int.le_ediv_iff_mul_le hk]
    have h3 : a / (k * b) * (k * b) ≤ a := Int.ediv_mul_le _ (ne_of_gt hkb)
    calc a / (k * b) * b * k = a / (k * b) * (k * b) := by ring
      _ ≤ a := h3

/-- C16 (counterexample): at 9223372036854776 Hz with `cpi` 1 and 1 baud,
`1000 * clock` is below `2^64`, but the quotient 9223372036854776000 is not a
`milicycle_t`: `milicycles_per_bit` is -9223372036854775616, and `1000 *
clock` is not below `(milicycles_per_bit + 1) * cpi * baud`. -/
theorem C16_counterexample :
    (1000 : Int) * 9223372036854776 < 18446744073709551616 ∧
    milicycles_per_bit { clock := 9223372036854776, baudrate := 1, driver := avr.driver,
                         stopbit := stopbits.one } = some (-9223372036854775616) ∧
    ¬ ((1000 : Int) * 9223372036854776 < (-9223372036854775616 + 1) * avr.driver.mcu.cpi * 1) := by
  refine ⟨by decide, by decide, by decide⟩

/-- C16 (amended): for a clock with `1000 * clock` below `2^64`, a `cpi` from
1 up and a baud rate above 0 whose exact quotient `1000 * clock / (cpi *
baud)` is below `2^63` (a `milicycle_t`), `milicycles_per_bit`, computed with
two truncating divisions, is the floor of that quotient:
`milicycles_per_bit * cpi * baud <= 1000 * clock < (milicycles_per_bit + 1) *
cpi * baud`. -/
theorem C16_milicycles_per_bit_floor (c : Config) (hclk : 0 ≤ c.clock)
    (hov : 1000 * c.clock < 18446744073709551616)
    (hc0 : 1 ≤ c.driver.mcu.cpi) (hc1 : c.driver.mcu.cpi ≤ 2147483647)
    (hb : 0 < c.baudrate)
    (hq : 1000 * c.clock / (c.driver.mcu.cpi * c.baudrate) < 9223372036854775808) :
    ∃ m, milicycles_per_bit c = some m ∧
      m = 1000 * c.clock / (c.driver.mcu.cpi * c.baudrate) ∧
      m * c.driver.mcu.cpi * c.baudrate ≤ 1000 * c.clock ∧
      1000 * c.clock < (m + 1) * c.driver.mcu.cpi * c.baudrate := by
  obtain ⟨k, hk⟩ : ∃ k, c.driver.mcu.cpi = k := ⟨_, rfl⟩
  obtain ⟨b, hbb⟩ : ∃ b, c.baudrate = b := ⟨_, rfl⟩
  obtain ⟨n, hn⟩ : ∃ n, c.clock = n := ⟨_, rfl⟩
  rw [hk] at hc0 hc1 hq
  rw [hbb] at hb hq
  rw [hn] at hclk hov hq
  simp only [hk, hbb, hn]
  have hkb : 0 < k * b := by positivity
  have hkk : to_clock_t k = k := by
    unfold to_clock_t
    exact Int.emod_eq_of_lt (by omega) (by omega)
  have hcl : to_clock_t (1000 * n) = 1000 * n := by
    unfold to_clock_t
    exact Int.emod_eq_of_lt (by omega) (by omega)
  have hdiv : Int.tdiv (Int.tdiv (1000 * n) k) b = 1000 * n / (k * b) := by
    have h1 : Int.tdiv (1000 * n) k = 1000 * n / k :=
      Int.tdiv_eq_ediv (by omega) (by omega)
    have h2 : 0 ≤ 1000 * n / k := Int.ediv_nonneg (by omega) (by omega)
    rw [h1, Int.tdiv_eq_ediv h2 (by omega), ediv_ediv_pos _ _ _ (by omega) hb]
  have hq0 : 0 ≤ 1000 * n / (k * b) := Int.ediv_nonneg (by omega) (by omega)
  have hmm : to_milicycle_t (1000 * n / (k * b)) = 1000 * n / (k * b) := by
    unfold to_milicycle_t
    omega
  refine ⟨1000 * n / (k * b), ?_, rfl, ?_, ?_⟩
  · simp only [milicycles_per_bit, mili, hk, hbb, hn, hkk, hcl, hdiv, hmm]
    rw [if_neg (by omega), if_neg (by omega)]
  · have := Int.ediv_mul_le (1000 * n) (ne_of_gt hkb)
    calc 1000 * n / (k * b) * k * b = 1000 * n / (k * b) * (k * b) := by ring
      _ ≤ 1000 * n := this
  · have := Int.lt_ediv_add_one_mul_self (1000 * n) hkb
    calc 1000 * n < (1000 * n / (k * b) + 1) * (k * b) := this
      _ = (1000 * n / (k * b) + 1) * k * b := by ring

/-- Witness of C16 (amended): `test115k`, with 69444 milicycles per bit. -/
theorem C16_milicycles_per_bit_floor_witness :
    ∃ m, milicycles_per_bit test115k = some m ∧
      m = 1000 * test115k.clock / (test115k.driver.mcu.cpi * test115k.baudrate) ∧
      m * test115k.driver.mcu.cpi * test115k.baudrate ≤ 1000 * test115k.clock ∧
      1000 * test115k.clock < (m + 1) * test115k.driver.mcu.cpi * test115k.baudrate :=
  C16_milicycles_per_bit_floor test115k (by decide) (by decide) (by decide) (by decide)
    (by decide) (by decide)

/-! ### The stop-bit setting -/

theorem entry_stopbit (c : Config) (s1 s2 : stopbits) (bit : Nat) (hb : bit ≠ 9) (rstart : Int) :
    entry { c with stopbit := s1 } bit rstart = entry { c with stopbit := s2 } bit rstart := by
  simp only [entry, transmitter.mfinish, transmitter.cycles, milicycles_per_bit, if_neg hb]

/-- C17: the instances `t<0>` .. `t<8>` do not depend on the stop-bit setting
(all their members agree for any two settings), and the ideal finish of the
stop entry `t<9>` is `9 * milicycles_per_bit + (milicycles_per_bit * k) / 2`
with `k` = 0, 1, 2, 3, 4 for none, half, one, one_half, two. -/
theorem C17_stopbit_only_last_entry (c : Config) (s1 s2 : stopbits) :
    (∀ i, i ≤ 8 → t { c with stopbit := s1 } i = t { c with stopbit := s2 } i) ∧
    (∀ e m, t { c with stopbit := s1 } 9 = some e → milicycles_per_bit c = some m →
      e.mfinish = 9 * m + Int.tdiv (m * s1.val) 2) ∧
    (stopbits.none.val = 0 ∧ stopbits.half.val = 1 ∧ stopbits.one.val = 2 ∧
      stopbits.one_half.val = 3 ∧ stopbits.two.val = 4) := by
  refine ⟨?_, ?_, ⟨rfl, rfl, rfl, rfl, rfl⟩⟩
  · intro i
    induction i with
    | zero =>
      intro _
      simp only [t]
      exact entry_stopbit c s1 s2 0 (by omega) _
    | succ b ih =>
      intro hb
      simp only [t, ih (by omega)]
      congr 1
      funext p
      exact entry_stopbit c s1 s2 (b + 1) (by omega) _
  · intro e m he hm
    obtain ⟨-, -, hmf, -, -, -, -, -⟩ := entry_eq_some (t_eq_some he)
    have hm' : milicycles_per_bit { c with stopbit := s1 } = some m := hm
    have := mfinish_stop hm' hmf
    rw [this]
    ring

/-- Witness of C17: `test115k` with one and with two stop bits, at entry 8,
and the stop entry with one stop bit. -/
theorem C17_stopbit_only_last_entry_witness :
    (8 : Nat) ≤ 8 ∧
    t { test115k with stopbit := stopbits.one } 8
      = t { test115k with stopbit := stopbits.two } 8 ∧
    milicycles_per_bit test115k = some 69444 ∧
    ∃ e, t { test115k with stopbit := stopbits.one } 9 = some e ∧
      e.mfinish = 9 * 69444 + Int.tdiv (69444 * stopbits.one.val) 2 :=
  ⟨le_refl 8, (C17_stopbit_only_last_entry test115k stopbits.one stopbits.two).1 8 (le_refl 8),
    by decide,
    { cycles := 2, mstart := 624996, mfinish := 694440, rstart := 625, length := 69, wait := 67,
      rfinish := 694, error := 440 }, by decide,
    (C17_stopbit_only_last_entry test115k stopbits.one stopbits.two).2.1
      { cycles := 2, mstart := 624996, mfinish := 694440, rstart := 625, length := 69, wait := 67,
        rfinish := 694, error := 440 } 69444 (by decide) (by decide)⟩

/-! ### No accumulation of the timing error -/

theorem baud_high_data {c : Config} {m : Int} (hm : milicycles_per_bit c = some m)
    (h : baud_high_assert c = some true) : 1000 * c.driver.send_cycles ≤ m := by
  simp only [baud_high_assert, hm, mili, Option.bind_eq_bind, Option.some_bind,
    Option.bind_eq_some] at h
  obtain ⟨p, hp, hd⟩ := h
  obtain ⟨rfl, -, -⟩ := s64_eq_some hp
  simpa using hd

theorem t_zero_exists {c : Config} : ∀ (bit : Nat) (e : Entry), t c bit = some e →
    ∃ e0, t c 0 = some e0 := by
  intro bit
  induction bit with
  | zero => exact fun e he => ⟨e, he⟩
  | succ b ih =>
    intro e he
    obtain ⟨p, hp, -⟩ := t_succ_eq_some he
    exact ih p hp

/-- A bit period whose cycles fit `cycle_t` is below the greatest `cycle_t`
when `t<0>` exists, since `bitlen` adds 1 to it. -/
theorem period_fits {c : Config} {m : Int} (hm : milicycles_per_bit c = some m) (hm0 : 0 ≤ m)
    (hfit : Int.tdiv m 1000 ≤ 2147483647) {e0 : Entry} (h0 : t c 0 = some e0) :
    m ≤ 2147483646999 := by
  obtain ⟨hrs, -, hmf, hlen, -, -, -, -⟩ := entry_eq_some (t_zero_eq_some h0)
  have hmf' := mfinish_data hm (show (0 : Nat) ≠ 9 by decide) hmf
  obtain ⟨q, k, hq, hw0, hw1, hl⟩ := bitlen_eq_some_lin hlen
  have hd := Int.tdiv_eq_ediv hm0 (show (0 : Int) ≤ 1000 by norm_num)
  rw [hd] at hfit
  simp only [hmf', Nat.cast_zero, zero_add, mul_one, zero_mul, sub_zero] at hq hl
  omega

/-- C18 (counterexample): at 4294967296 Hz and 1 baud with the AVR driver
(`start_cycles` 0, `send_cycles` 3) the baud-too-high assertion holds, but the
bit period of 4294967296 cycles does not fit `cycle_t`: `t<0>` has length 1
below its 3 cycles and an error of 4294967293000 milicycles. -/
theorem C18_counterexample :
    baud_high_assert { clock := 4294967296, baudrate := 1, driver := avr.driver,
                       stopbit := stopbits.one } = some true ∧
    ∃ e, t { clock := 4294967296, baudrate := 1, driver := avr.driver,
             stopbit := stopbits.one } 0 = some e ∧
      ¬ (e.cycles ≤ e.length) ∧ ¬ (e.error ≤ 500) :=
  ⟨by decide, _, rfl, by decide, by decide⟩

/-- C18 (amended): for a driver with `start_cycles = 0` and `send_cycles >= 0`
and a clock and baud rate that pass the baud-too-high assertion and whose bit
period in cycles, `milicycles_per_bit / 1000`, fits `cycle_t`, every entry
`t<i>`, `i` in 0..8, has `length >= cycles`, `wait = length - cycles` and an
error of at most 500 milicycles. -/
theorem C18_error_does_not_accumulate (c : Config) (m : Int)
    (hm : milicycles_per_bit c = some m)
    (hstart : c.driver.start_cycles = 0) (hsend : 0 ≤ c.driver.send_cycles)
    (hhigh : baud_high_assert c = some true) (hfit : Int.tdiv m 1000 ≤ 2147483647)
    (i : Nat) (hi : i ≤ 8) (e : Entry) (he : t c i = some e) :
    e.cycles ≤ e.length ∧ e.wait = e.length - e.cycles ∧ e.error ≤ 500 := by
  have hh := baud_high_data hm hhigh
  obtain ⟨e0, h0⟩ := t_zero_exists i e he
  have hfit' := period_fits hm (by omega) hfit h0
  obtain ⟨-, -, -, h1, h2, -, h3, -, -⟩ := t_tracks hm hstart hsend hh hfit' i hi e he
  exact ⟨h1, h2, h3⟩

/-- Witness of C18 (amended): entry 8 of `test115k`. -/
theorem C18_error_does_not_accumulate_witness :
    ∃ e, t test115k 8 = some e ∧
      e.cycles ≤ e.length ∧ e.wait = e.length - e.cycles ∧ e.error ≤ 500 :=
  ⟨_, rfl, C18_error_does_not_accumulate test115k 69444 (by decide) rfl (by decide)
    (by decide) (by decide) 8 (by decide) _ rfl⟩

/-- C19: with the AVR driver and a bit period from 3000 to 1532000 milicycles
(both assertions on the baud rate hold), every entry `t<i>`, `i` in 0..8,
exists, has an error of at most `milicycles_per_bit / 5` and a `wait` of at
most 1532, and meets both of its static assertions. -/
theorem C19_baud_checks_subsume (c : Config) (m : Int) (hd : c.driver = avr.driver)
    (hm : milicycles_per_bit c = some m) (h0 : 3000 ≤ m) (h1 : m ≤ 1000 * 1532) :
    baud_high_assert c = some true ∧ baud_low_assert c = some true ∧
    ∀ i, i ≤ 8 → ∃ e, t c i = some e ∧ e.error ≤ Int.tdiv m 5 ∧ e.wait ≤ 1532 ∧
      error_assert c i = some true ∧ wait_assert c i = some true := by
  have hstart : c.driver.start_cycles = 0 := by rw [hd]; rfl
  have hsendv : c.driver.send_cycles = 3 := by rw [hd]; rfl
  have hmax : c.driver.mcu.delay_max = 1532 := by rw [hd]; rfl
  have hsend : 0 ≤ c.driver.send_cycles := by omega
  have hhigh : 1000 * c.driver.send_cycles ≤ m := by omega
  have h5 : Int.tdiv m 5 = m / 5 := Int.tdiv_eq_ediv (by omega) (by norm_num)
  have h1000 : Int.tdiv m 1000 = m / 1000 := Int.tdiv_eq_ediv (by omega) (by norm_num)
  refine ⟨?_, ?_, ?_⟩
  · simp only [baud_high_assert, hm, mili, hsendv, Option.bind_eq_bind, Option.some_bind,
      s64_of_fits (show (-9223372036854775808 : Int) ≤ 1000 * 3 by norm_num)
        (show (1000 : Int) * 3 ≤ 9223372036854775807 by norm_num)]
    simp
    omega
  · simp only [baud_low_assert, hm, mili, hmax, h1000, Option.bind_eq_bind, Option.some_bind,
      s32_of_fits (show -2147483648 ≤ m / 1000 by omega) (show m / 1000 ≤ 2147483647 by omega),
      s64_of_fits (show (-9223372036854775808 : Int) ≤ 1000 * 1532 by norm_num)
        (show (1000 : Int) * 1532 ≤ 9223372036854775807 by norm_num)]
    simp
    omega
  · intro i hi
    obtain ⟨e, he⟩ := t_exists hm hstart hsend hhigh (by omega) i hi
    obtain ⟨⟨r0, r1⟩, -, hcy, hlen, hwait, hrf, herr, f0, f1⟩ :=
      t_tracks hm hstart hsend hhigh (by omega) i hi e he
    have hexp : m * ((i : Int) + 1) = m * i + m := by ring
    have hw : e.wait ≤ 1532 := by omega
    have hee : e.error ≤ Int.tdiv m 5 := by
      rw [h5]
      omega
    refine ⟨e, he, hee, hw, ?_, ?_⟩
    · rw [error_assert_eq hm he]
      simp [hee]
    · simp [wait_assert, he, hmax, hw]

/-- Witness of C19: `test115k`, with 69444 milicycles per bit. -/
theorem C19_baud_checks_subsume_witness :
    baud_high_assert test115k = some true ∧ baud_low_assert test115k = some true ∧
    ∀ i, i ≤ 8 → ∃ e, t test115k i = some e ∧ e.error ≤ Int.tdiv 69444 5 ∧ e.wait ≤ 1532 ∧
      error_assert test115k i = some true ∧ wait_assert test115k i = some true :=
  C19_baud_checks_subsume test115k 69444 rfl (by decide) (by decide) (by decide)

/-! ### Size of the loop count -/

/-- C20: for every `n` from 12 to 1532, which has no specialisation and so
reaches a loop, the loop count is `n / 3` when `n <= 765` and `n / 6`
otherwise and lies between 1 and 255: "Loop is too long" holds, the count is
not 0, and the loop runs exactly `count` times. -/
theorem C20_loop_count_in_byte (n : Int) (h0 : 12 ≤ n) (h1 : n ≤ 1532) :
    avr.delay_specialised n = none ∧
    avr.loop_count n (avr.longloop n) = (if n ≤ 765 then n / 3 else n / 6) ∧
    1 ≤ avr.loop_count n (avr.longloop n) ∧ avr.loop_count n (avr.longloop n) ≤ 255 ∧
    avr.loop_assert n (avr.longloop n) = true ∧
    avr.iterations (avr.loop_count n (avr.longloop n)) = avr.loop_count n (avr.longloop n) := by
  have hn0 : 0 ≤ n := by omega
  have hd3 : Int.tdiv n 3 = n / 3 := Int.tdiv_eq_ediv hn0 (by norm_num)
  have hd6 : Int.tdiv n 6 = n / 6 := Int.tdiv_eq_ediv hn0 (by norm_num)
  have hc : avr.loop_count n (avr.longloop n) = (if n ≤ 765 then n / 3 else n / 6) := by
    by_cases hl : n ≤ 765
    · simp [avr.loop_count, avr.longloop, hl, hd3, not_lt.mpr hl]
    · simp [avr.loop_count, avr.longloop, hl, hd6, not_le.mp hl]
  have hb : 1 ≤ avr.loop_count n (avr.longloop n) ∧ avr.loop_count n (avr.longloop n) ≤ 255 := by
    rw [hc]
    split_ifs <;> omega
  refine ⟨delay_specialised_none n h0, hc, hb.1, hb.2, ?_, iterations_of_byte _ hb.1 hb.2⟩
  simp [avr.loop_assert, hb.2]

/-- Witness of C20 at the least period that reaches a loop, 12 cycles. -/
theorem C20_loop_count_in_byte_witness :
    avr.delay_specialised 12 = none ∧
    avr.loop_count 12 (avr.longloop 12) = (if (12 : Int) ≤ 765 then 12 / 3 else 12 / 6) ∧
    1 ≤ avr.loop_count 12 (avr.longloop 12) ∧ avr.loop_count 12 (avr.longloop 12) ≤ 255 ∧
    avr.loop_assert 12 (avr.longloop 12) = true ∧
    avr.iterations (avr.loop_count 12 (avr.longloop 12)) = avr.loop_count 12 (avr.longloop 12) :=
  C20_loop_count_in_byte 12 (by decide) (by decide)

end hast
